import Mathlib

/-!
Verification of the YouTube Transcript Manager core (the `ytm` package).

The Python sources are shallowly embedded over `List Char` / `String`:
pure functions become Lean functions, and the external collaborators
(the network clients, the filesystem, and the Unicode normalizer of the
Python standard library) become explicit parameters.  Transcript times
(Python floats) are modelled as rationals.
-/

namespace Ytm

/-- Python whitespace, as removed by `str.strip()` with no arguments and
matched by `\s` of the `re` module: ASCII whitespace, the C1 file/group/
record/unit separators, NEL, NBSP and the Unicode space separators. -/
def isPySpace (c : Char) : Bool :=
  c = ' ' || c = '\t' || c = '\n' || c = '\r' || c = '\x0b' || c = '\x0c' ||
  (0x1c ≤ c.toNat && c.toNat ≤ 0x1f) || c = '\x85' || c = '\xa0' ||
  c = '\u1680' || (0x2000 ≤ c.toNat && c.toNat ≤ 0x200a) ||
  c = '\u2028' || c = '\u2029' || c = '\u202f' || c = '\u205f' || c = '\u3000'

/-- Python `str.strip()` (no arguments) on a list of characters. -/
def pyStrip (l : List Char) : List Char :=
  (l.dropWhile (fun c => isPySpace c)).rdropWhile (fun c => isPySpace c)

/-- Python `str.rstrip()` (no arguments) on a list of characters. -/
def pyRstrip (l : List Char) : List Char :=
  l.rdropWhile (fun c => isPySpace c)

/-- The reserved filesystem characters replaced by `clean_filename`
(ytm/utils.py line 55, the class of the regex). -/
def isInvalidChar (c : Char) : Bool :=
  c = '\\' || c = '/' || c = ':' || c = '*' || c = '?' || c = '"' ||
  c = '<' || c = '>' || c = '|'

/-- ytm/utils.py line 56: replace reserved characters by an underscore. -/
def replaceInvalid (l : List Char) : List Char :=
  l.map (fun c => if isInvalidChar c then '_' else c)

/-- ytm/utils.py line 61: replace the non-breaking space by a plain space. -/
def replaceNbsp (l : List Char) : List Char :=
  l.map (fun c => if c = '\xa0' then ' ' else c)

/-- ytm/utils.py line 63: keep basic ASCII, replace other characters by an
underscore. -/
def asciiOnly (l : List Char) : List Char :=
  l.map (fun c => if c.toNat < 128 then c else '_')

/-- A character collapsed by ytm/utils.py line 69 (the class `[_\s]`). -/
def isCollapsible (c : Char) : Bool :=
  c = '_' || isPySpace c

/-- ytm/utils.py line 69: collapse each run of underscores/whitespace into a
single space.  The boolean state records whether the previous character
belonged to such a run. -/
def collapseGo : Bool → List Char → List Char
  | _, [] => []
  | inRun, c :: rest =>
    if isCollapsible c then
      if inRun then collapseGo true rest else ' ' :: collapseGo true rest
    else c :: collapseGo false rest

/-- `re.sub(r"[_\s]+", " ", text)` of ytm/utils.py line 69. -/
def collapseRuns (l : List Char) : List Char :=
  collapseGo false l

/-- The character set of `text.strip(" ._")` (ytm/utils.py line 72). -/
def isStripChar (c : Char) : Bool :=
  c = ' ' || c = '.' || c = '_'

/-- `text.strip(" ._")` of ytm/utils.py line 72. -/
def stripEnds (l : List Char) : List Char :=
  (l.dropWhile (fun c => isStripChar c)).rdropWhile (fun c => isStripChar c)

/-- Python `text.rsplit(" ", 1)[0]`: everything before the last space, or the
whole string when it contains no space (ytm/utils.py line 77). -/
def dropLastSpaceChunk (l : List Char) : List Char :=
  match l.reverse.dropWhile (fun c => ¬ c = ' ') with
  | [] => l
  | _ :: rest => rest.reverse

/-- ytm/utils.py lines 75–77: truncate to 150 characters, cutting back to the
preceding space boundary. -/
def truncate150 (l : List Char) : List Char :=
  if 150 < l.length then dropLastSpaceChunk (l.take 150) else l

def untitled : List Char :=
  "untitled".data

/-- `clean_filename` (ytm/utils.py lines 39–79) on a list of characters.
The Unicode NFKD normalization of `unicodedata.normalize` (line 60) is the
Python standard library's, external to this repository; it is passed in as
the parameter `nfkd`.  On strings made of basic ASCII characters Unicode
NFKD is the identity, so instantiating `nfkd := id` models the source
exactly on ASCII inputs.  The `isinstance` guard and the unreachable
`TypeError` handler of the source concern non-string inputs and are outside
this embedding, whose input is a string. -/
def clean_filename (nfkd : List Char → List Char) (l : List Char) : List Char :=
  if pyStrip l = [] then untitled
  else
    let t := truncate150 (stripEnds (collapseRuns (asciiOnly (replaceNbsp (nfkd (replaceInvalid l))))))
    if t = [] then untitled else t

/-- The decimal digit characters (arguments are always below ten). -/
def digitChar : Nat → Char
  | 0 => '0'
  | 1 => '1'
  | 2 => '2'
  | 3 => '3'
  | 4 => '4'
  | 5 => '5'
  | 6 => '6'
  | 7 => '7'
  | 8 => '8'
  | _ => '9'

/-- Decimal digits of a natural number; the first argument is fuel making the
recursion structural (any fuel above the digit count gives the digits). -/
def natDigitsGo : Nat → Nat → List Char
  | 0, _ => []
  | fuel + 1, n =>
    if n < 10 then [digitChar n]
    else natDigitsGo fuel (n / 10) ++ [digitChar (n % 10)]

/-- The decimal rendering of a natural number, as Python `str`/`f"{n}"`. -/
def natToStr (n : Nat) : List Char :=
  natDigitsGo (n + 1) n

/-- Python `f"{n:02d}"`: decimal, zero-padded to width two. -/
def pad2 (n : Nat) : List Char :=
  if n < 10 then '0' :: natToStr n else natToStr n

/-- The floor of a rational as an integer (the denominator is positive, so
floor division of numerator by denominator is the mathematical floor). -/
def ratFloor (q : ℚ) : ℤ :=
  Int.fdiv q.num q.den

/-- `format_timestamp` (ytm/utils.py lines 82–99).  Python floats are
modelled as rationals and the float operations are carried out exactly on
the clamped value `max(0, seconds) = n / d` (`d > 0`): `seconds // 3600` is
`⌊n / (3600 d)⌋`; `(seconds % 3600) // 60` is
`⌊(n − 3600⌊n/(3600 d)⌋ d) / (60 d)⌋`; `int(seconds % 60)` is
`⌊seconds⌋ − 60⌊seconds/60⌋` (`int` equals floor on these nonnegative
values).  The divisions are spelled with `Int.fdiv` on numerator and scaled
denominator, which is the floor of the rational quotient. -/
def format_timestamp (seconds : ℚ) : List Char :=
  let n : ℤ := if seconds.num < 0 then 0 else seconds.num
  let d : ℤ := if seconds.num < 0 then 1 else (seconds.den : ℤ)
  let hours : Nat := (Int.fdiv n (d * 3600)).toNat
  let minutes : Nat := (Int.fdiv (n - 3600 * Int.fdiv n (d * 3600) * d) (d * 60)).toNat
  let secs : Nat := (Int.fdiv n d - 60 * Int.fdiv n (d * 60)).toNat
  if 0 < hours then natToStr hours ++ ':' :: pad2 minutes ++ ':' :: pad2 secs
  else pad2 minutes ++ ':' :: pad2 secs

/-- The id alphabet `[a-zA-Z0-9_-]` of the video-id patterns
(ytm/utils.py lines 124–137). -/
def isIdChar (c : Char) : Bool :=
  ('a' ≤ c && c ≤ 'z') || ('A' ≤ c && c ≤ 'Z') || ('0' ≤ c && c ≤ '9') ||
  c = '_' || c = '-'

/-- The group `([a-zA-Z0-9_-]{11})`: the first eleven characters of `l` when
they exist and all lie in the id alphabet. -/
def take11Ids (l : List Char) : Option (List Char) :=
  let t := l.take 11
  if t.length = 11 && t.all isIdChar then some t else none

/-- `re.search` of a pattern `(?:https?://)?(?:www\.)?MARKER([a-zA-Z0-9_-]{11})`
(ytm/utils.py lines 126–128): the optional scheme and `www.` prefixes never
change the captured group, so the search returns the group of the leftmost
occurrence of the literal marker that is followed by eleven id characters. -/
def searchMarker (marker : List Char) : List Char → Option (List Char)
  | [] => none
  | c :: rest =>
    if marker.isPrefixOf (c :: rest) then
      match take11Ids (List.drop marker.length (c :: rest)) with
      | some g => some g
      | none => searchMarker marker rest
    else searchMarker marker rest

/-- Attempt of the `watch` pattern's `v=([a-zA-Z0-9_-]{11})` at offset `j`. -/
def vAt (l : List Char) (j : Nat) : Option (List Char) :=
  match l.drop j with
  | c1 :: c2 :: rest => if c1 = 'v' && c2 = '=' then take11Ids rest else none
  | _ => none

/-- Backtracking of the greedy `.*` of the `watch` pattern: the rightmost
offset `≤ j` at which `v=` is followed by eleven id characters. -/
def findVFrom (l : List Char) : Nat → Option (List Char)
  | 0 => vAt l 0
  | j + 1 =>
    match vAt l (j + 1) with
    | some g => some g
    | none => findVFrom l j

/-- The `.*v=([a-zA-Z0-9_-]{11})` part of the `watch` pattern: `.` does not
match a newline, so `v` may only occur inside the maximal newline-free
prefix, and the greedy `.*` selects the rightmost such occurrence. -/
def findVGreedy (l : List Char) : Option (List Char) :=
  match (l.takeWhile (fun c => ¬ c = '\n')).length with
  | 0 => none
  | w + 1 => findVFrom l w

def watchMarker : List Char :=
  "youtube.com/watch?".data

/-- `re.search` of the pattern
`(?:https?://)?(?:www\.)?youtube\.com/watch\?.*v=([a-zA-Z0-9_-]{11})`
(ytm/utils.py line 125); as in `searchMarker`, the optional prefixes never
change the captured group. -/
def searchWatch : List Char → Option (List Char)
  | [] => none
  | c :: rest =>
    if watchMarker.isPrefixOf (c :: rest) then
      match findVGreedy (List.drop 18 (c :: rest)) with
      | some g => some g
      | none => searchWatch rest
    else searchWatch rest

/-- `extract_video_id` (ytm/utils.py lines 102–140): the four URL patterns
are tried in source order over the stripped input, then the bare-id
fullmatch. -/
def extract_video_id (s : String) : Option String :=
  if s.data = [] then none
  else
    let t := pyStrip s.data
    let hit : Option (List Char) :=
      (searchWatch t).orElse fun _ =>
        (searchMarker "youtu.be/".data t).orElse fun _ =>
          (searchMarker "youtube.com/shorts/".data t).orElse fun _ =>
            (searchMarker "youtube.com/embed/".data t).orElse fun _ =>
              if t.length = 11 && t.all isIdChar then some t else none
    hit.map String.mk

/-- One transcript entry as delivered by the external transcript source:
`text`, `start`, and an optional `duration` (the Python dicts always carry
`start`; `duration` is read with `.get`, so it is modelled as optional). -/
structure Entry where
  text : String
  start : ℚ
  duration : Option ℚ
deriving DecidableEq

/-- Python `text.replace("\n", " ")` (single-character replacement). -/
def replaceNewline (l : List Char) : List Char :=
  l.map (fun c => if c = '\n' then ' ' else c)

/-- The body (without the final newline) of one Markdown entry line,
`` `{timestamp}` — {text} `` (ytm/fetcher.py line 204). -/
def entryBody (ts t : List Char) : List Char :=
  '`' :: ts ++ '`' :: ' ' :: '—' :: ' ' :: t

/-- The entry line of `_write_markdown` (ytm/fetcher.py lines 200–204):
empty-text entries produce nothing. -/
def entryLineMd (e : Entry) : List Char :=
  let text := pyStrip (replaceNewline e.text.data)
  if text = [] then []
  else entryBody (format_timestamp e.start) text ++ ['\n']

/-- The `**Video URL:** [{url}]({url})` line body (ytm/fetcher.py line 198). -/
def urlLine (url : List Char) : List Char :=
  "**Video URL:** [".data ++ url ++ "](".data ++ url ++ [')']

/-- `_write_markdown` (ytm/fetcher.py lines 195–204), as the written file
content: `# {title}\n\n`, the URL line and a blank, `## Transcript` and a
blank, then the entry lines. -/
def write_markdown (title url : List Char) (entries : List Entry) : List Char :=
  ('#' :: ' ' :: title) ++ '\n' :: '\n' ::
    (urlLine url ++ '\n' :: '\n' ::
      ("## Transcript".data ++ '\n' :: '\n' ::
        (entries.map entryLineMd).flatten))

/-- Round half to even at integer precision, as Python `round` on a float
read exactly as a rational. -/
def roundHalfEven (x : ℚ) : ℤ :=
  let f := ratFloor x
  let r := x - f
  if r < 1 / 2 then f
  else if 1 / 2 < r then f + 1
  else if f % 2 = 0 then f else f + 1

/-- Python `round(x, 2)` on the rational model of a float. -/
def pyRound2 (q : ℚ) : ℚ :=
  (roundHalfEven (q * 100) : ℚ) / 100

/-- One element of the `transcript` array written by `_write_json`. -/
structure JsonEntry where
  timestamp : List Char
  start_seconds : ℚ
  duration : ℚ
  text : List Char
deriving DecidableEq

/-- The object serialized by `_write_json`; the `json.dump` text encoding is
the standard library's and is not modelled. -/
structure JsonDoc where
  title : List Char
  video_id : List Char
  video_url : List Char
  transcript : List JsonEntry
deriving DecidableEq

/-- `_write_json` (ytm/fetcher.py lines 207–224). -/
def write_json (title videoId url : List Char) (entries : List Entry) : JsonDoc :=
  { title := title
    video_id := videoId
    video_url := url
    transcript := entries.filterMap fun e =>
      if pyStrip e.text.data = [] then none
      else some
        { timestamp := format_timestamp e.start
          start_seconds := pyRound2 e.start
          duration := pyRound2 (e.duration.getD 0)
          text := pyStrip (replaceNewline e.text.data) } }

/-- The per-entry text of `_write_text` (ytm/fetcher.py lines 232–235). -/
def entryTextTxt (e : Entry) : List Char :=
  let text := pyStrip (replaceNewline e.text.data)
  if text = [] then [] else text ++ [' ']

/-- `_write_text` (ytm/fetcher.py lines 227–236). -/
def write_text (title url : List Char) (entries : List Entry) : List Char :=
  title ++ '\n' :: "URL: ".data ++ url ++ '\n' :: List.replicate 60 '=' ++
    "\n\n".data ++ (entries.map entryTextTxt).flatten ++ ['\n']

/-- Python `int()` on the rational `num / den` (`den > 0`): truncation
toward zero. -/
def qTrunc (num den : ℤ) : ℤ :=
  if 0 ≤ num then Int.fdiv num den else -Int.fdiv (-num) den

/-- Python `f"{n:0Nd}"`: decimal, zero-padded to total width `w`, the sign
before the padding. -/
def zpad (w : Nat) (n : ℤ) : List Char :=
  if 0 ≤ n then
    let d := natToStr n.toNat
    List.replicate (w - d.length) '0' ++ d
  else
    let d := natToStr (-n).toNat
    '-' :: (List.replicate (w - 1 - d.length) '0' ++ d)

/-- `_srt_time` (ytm/fetcher.py lines 256–262): `HH:MM:SS,mmm` with
zero-padded fields.  As in `format_timestamp` the float operations are
carried out exactly on `seconds = n / d`; `int(seconds)` truncates toward
zero (`qTrunc n d`), and `int((seconds - int(seconds)) * 1000)` is
`qTrunc ((n - int(seconds) · d) · 1000) d`. -/
def srt_time (seconds : ℚ) : List Char :=
  let n : ℤ := seconds.num
  let d : ℤ := seconds.den
  let hours : ℤ := Int.fdiv n (d * 3600)
  let minutes : ℤ := Int.fdiv (n - 3600 * Int.fdiv n (d * 3600) * d) (d * 60)
  let secs : ℤ := Int.fdiv n d - 60 * Int.fdiv n (d * 60)
  let whole : ℤ := qTrunc n d
  let millis : ℤ := qTrunc ((n - whole * d) * 1000) d
  zpad 2 hours ++ ':' :: zpad 2 minutes ++ ':' :: zpad 2 secs ++ ',' :: zpad 3 millis

/-- One SRT cue as written by `_write_srt` (ytm/fetcher.py lines 250–252),
with the entry's duration defaulting to 2.0 (line 247). -/
def srtCue (idx : Nat) (text : List Char) (e : Entry) : List Char :=
  natToStr idx ++ '\n' :: srt_time e.start ++ " --> ".data ++
    srt_time (e.start + e.duration.getD 2) ++ '\n' :: text ++ "\n\n".data

/-- The loop of `_write_srt` (ytm/fetcher.py lines 241–253): empty-text
entries are skipped without consuming an index. -/
def writeSrtGo (idx : Nat) : List Entry → List Char
  | [] => []
  | e :: rest =>
    let text := pyStrip (replaceNewline e.text.data)
    if text = [] then writeSrtGo idx rest
    else srtCue idx text e ++ writeSrtGo (idx + 1) rest

/-- `_write_srt` (ytm/fetcher.py lines 239–253). -/
def write_srt (entries : List Entry) : List Char :=
  writeSrtGo 1 entries

def knownFormats : List String :=
  ["md", "json", "txt", "srt"]

/-- The extension fallback shared by `save_transcript` (ytm/fetcher.py
line 169) and `file_already_exists` (line 278). -/
def extensionFor (fmt : String) : String :=
  if fmt ∈ knownFormats then fmt else "md"

/-- What `save_transcript` writes, by format: the `if/elif/else` dispatch of
ytm/fetcher.py lines 177–186, whose final `else` writes Markdown. -/
inductive SavedContent where
  | md (content : List Char)
  | json (doc : JsonDoc)
  | txt (content : List Char)
  | srt (content : List Char)
deriving DecidableEq

/-- The format dispatch of `save_transcript` (ytm/fetcher.py lines 177–186). -/
def saveContent (fmt : String) (title videoId url : List Char) (entries : List Entry) : SavedContent :=
  if fmt = "md" then .md (write_markdown title url entries)
  else if fmt = "json" then .json (write_json title videoId url entries)
  else if fmt = "txt" then .txt (write_text title url entries)
  else if fmt = "srt" then .srt (write_srt entries)
  else .md (write_markdown title url entries)

/-- The filename chosen by `save_transcript` (ytm/fetcher.py lines 164–171):
an empty title falls back to the video id before sanitizing.  The directory
is prepended identically by `os.path.flatten` in both path computations, so
paths agree exactly when filenames do. -/
def saveFilename (nfkd : List Char → List Char) (title videoId : List Char) (fmt : String) : List Char :=
  let t := if title = [] then videoId else title
  clean_filename nfkd t ++ '.' :: (extensionFor fmt).data

/-- The filename checked by `file_already_exists` (ytm/fetcher.py lines
265–280); note it has no empty-title fallback. -/
def existsFilename (nfkd : List Char → List Char) (title : List Char) (fmt : String) : List Char :=
  clean_filename nfkd title ++ '.' :: (extensionFor fmt).data

/-- The title resolution of `fetch_single_video_transcript` (ytm/fetcher.py
lines 399–424).  `apiTitle` is the outcome of building the API client and
calling `get_video_title_from_api` (`none` covers a client-construction
error and a failed lookup; an empty string is falsy and also keeps the id).
`scrapeTitle` is the title extracted from `scrapetube.get_video` (`none`
when the call raises or yields no usable title object). -/
def resolveSingleTitle (videoId : List Char) (apiKey : Option String)
    (apiTitle : Option (List Char)) (scrapeTitle : Option (List Char)) : List Char :=
  match apiKey with
  | some _ =>
    match apiTitle with
    | some t => if t = [] then videoId else t
    | none => videoId
  | none => scrapeTitle.getD videoId

/-- One transcript track offered by the external transcript source, tagged
manual/generated and by language. -/
structure Track where
  language : String
  isGenerated : Bool
  content : List Entry
deriving DecidableEq

/-- `find_manually_created_transcript` / `find_generated_transcript` of the
youtube-transcript-api collaborator: the requested language codes are tried
in the caller-supplied order, and the first track of the list carrying the
language is taken. -/
def findTranscript (tracks : List Track) : List String → Option Track
  | [] => none
  | lg :: rest =>
    match tracks.find? (fun t => t.language = lg) with
    | some t => some t
    | none => findTranscript tracks rest

/-- `get_transcript` (ytm/fetcher.py lines 96–140).  `listing` is the result
of `YouTubeTranscriptApi.list_transcripts`: `none` models the
`TranscriptsDisabled` and unexpected-error outcomes, `some tracks` the
available tracks, split by the manual/generated tag exactly as the API's
two finders do.  A `none` language list defaults to `["en"]` (line 112). -/
def get_transcript (listing : Option (List Track)) (languages : Option (List String)) : Option (List Entry) :=
  let langs := languages.getD ["en"]
  match listing with
  | none => none
  | some tracks =>
    match findTranscript (tracks.filter (fun t => !t.isGenerated)) langs with
    | some t => some t.content
    | none =>
      match findTranscript (tracks.filter (fun t => t.isGenerated)) langs with
      | some t => some t.content
      | none => none

/-- One enumerated video of `get_channel_videos`; the title key is always
set by the enumeration, but the fetch loop reads it defensively with
`video.get("title", video_id)`, so it is modelled as optional. -/
structure Video where
  id : List Char
  url : List Char
  title : Option (List Char)
deriving DecidableEq

/-- The tally returned by `fetch_channel_transcripts`. -/
structure Tally where
  success : Nat
  failed : Nat
  skipped : Nat
deriving DecidableEq

/-- The external world of one channel-fetch run: the enumeration result
(`none` models a scrapetube failure, where `get_channel_videos` returns
`None`), whether the optional API client was built, and the per-video
outcomes of the title lookup, the existence check, the transcript fetch and
the save. -/
structure ChannelEnv where
  enum : Option (List Video)
  apiActive : Bool
  apiTitle : List Char → Option (List Char)
  existsFile : List Char → String → Bool
  transcript : List Char → Option (List Entry)
  savePath : List Char → Option (List Char)

/-- The title used by the per-video loop (ytm/fetcher.py lines 336–342):
the enumeration title (defaulting to the id), overridden by a truthy API
title when the API client is active. -/
def channelTitle (env : ChannelEnv) (v : Video) : List Char :=
  let title0 := v.title.getD v.id
  if env.apiActive then
    match env.apiTitle v.id with
    | some ti => if ti = [] then title0 else ti
    | none => title0
  else title0

/-- The body of the per-video loop of `fetch_channel_transcripts`
(ytm/fetcher.py lines 333–362): exactly one of the three counters is
incremented.  A `None` or empty transcript list is falsy and counts as
failed (line 354). -/
def processVideo (env : ChannelEnv) (fmt : String) (skipExisting : Bool) (t : Tally) (v : Video) : Tally :=
  let title := channelTitle env v
  if skipExisting && env.existsFile title fmt then
    { t with skipped := t.skipped + 1 }
  else
    match env.transcript v.id with
    | some (_ :: _) =>
      match env.savePath v.id with
      | some _ => { t with success := t.success + 1 }
      | none => { t with failed := t.failed + 1 }
    | _ => { t with failed := t.failed + 1 }

/-- `fetch_channel_transcripts` (ytm/fetcher.py lines 283–369).  A failed
enumeration (lines 320–322) and an empty video list (lines 323–325) both
return the zero tally; a positive `limit` truncates the list (line 328; the
Python `limit > 0` guard makes `Nat` a faithful model of the `int`
argument). -/
def fetch_channel_transcripts (env : ChannelEnv) (fmt : String) (skipExisting : Bool) (limit : Nat) : Tally :=
  match env.enum with
  | none => ⟨0, 0, 0⟩
  | some videos =>
    if videos = [] then ⟨0, 0, 0⟩
    else
      let vs := if 0 < limit then videos.take limit else videos
      vs.foldl (processVideo env fmt skipExisting) ⟨0, 0, 0⟩

/-- Python `readlines`: split after every newline, each line keeping its
trailing newline, a last newline-less fragment kept when nonempty. -/
def pyReadLinesGo (cur : List Char) : List Char → List (List Char)
  | [] => if cur = [] then [] else [cur.reverse]
  | c :: rest =>
    if c = '\n' then (cur.reverse ++ ['\n']) :: pyReadLinesGo [] rest
    else pyReadLinesGo (c :: cur) rest

def pyReadLines (l : List Char) : List (List Char) :=
  pyReadLinesGo [] l

/-- Python `line.split(sep, 1)` when `sep` occurs: the parts around the
first occurrence; `none` when `sep` does not occur. -/
def splitOnFirst (sep : List Char) : List Char → Option (List Char × List Char)
  | [] => if sep.isPrefixOf ([] : List Char) then some ([], []) else none
  | c :: rest =>
    if sep.isPrefixOf (c :: rest) then some ([], List.drop sep.length (c :: rest))
    else
      match splitOnFirst sep rest with
      | some (a, b) => some (c :: a, b)
      | none => none

/-- Python `s.strip("`")`. -/
def stripBackticks (l : List Char) : List Char :=
  (l.dropWhile (fun c => c = '`')).rdropWhile (fun c => c = '`')

/-- Python `haystack.find(needle)` as an optional index. -/
def findSub (needle : List Char) : List Char → Option Nat
  | [] => if needle = [] then some 0 else none
  | c :: rest =>
    if needle.isPrefixOf (c :: rest) then some 0
    else (findSub needle rest).map (· + 1)

/-- The URL extraction of `_combine_as_json` (ytm/combiner.py lines 90–96):
from the first `http` to the next `)`, or to the end of the line. -/
def extractUrlFromLine (l : List Char) : Option (List Char) :=
  match findSub "http".data l with
  | none => none
  | some i =>
    let rest := l.drop i
    match findSub [')'] rest with
    | none => some rest
    | some j => some (rest.take j)

/-- The state built by the Markdown re-parser of `_combine_as_json`. -/
structure ParsedFile where
  title : List Char
  video_url : List Char
  entries : List (List Char × List Char)
deriving DecidableEq

def mdSepDash : List Char :=
  "` — ".data

def mdSepHyphen : List Char :=
  "` - ".data

/-- One iteration of the line loop of `_combine_as_json` (ytm/combiner.py
lines 85–108): strip the line, then the `# ` / `**Video URL:**` /
backtick-dash branches in source order. -/
def parseLineStep (st : ParsedFile) (line : List Char) : ParsedFile :=
  let l := pyStrip line
  if "# ".data.isPrefixOf l then { st with title := l.drop 2 }
  else if "**Video URL:**".data.isPrefixOf l then
    match extractUrlFromLine l with
    | some u => { st with video_url := u }
    | none => st
  else if "`".data.isPrefixOf l && (splitOnFirst mdSepDash l).isSome then
    match splitOnFirst mdSepDash l with
    | some (a, b) => { st with entries := st.entries ++ [(stripBackticks a, pyStrip b)] }
    | none => st
  else if "`".data.isPrefixOf l && (splitOnFirst mdSepHyphen l).isSome then
    match splitOnFirst mdSepHyphen l with
    | some (a, b) => { st with entries := st.entries ++ [(stripBackticks a, pyStrip b)] }
    | none => st
  else st

/-- The Markdown re-parsing of one file inside `_combine_as_json`
(ytm/combiner.py lines 77–108); `stem` is the `.md`-less basename used as
the default title. -/
def parse_markdown_transcript (stem : List Char) (lines : List (List Char)) : ParsedFile :=
  lines.foldl parseLineStep { title := stem, video_url := [], entries := [] }

/-- One saved transcript file as the search engine sees it: a name and the
`readlines` content.  Files are pure data here; the per-file read-error
branch of the source (ytm/search.py lines 88–90) has no counterpart. -/
structure MDFile where
  name : List Char
  lines : List (List Char)
deriving DecidableEq

/-- One search result dict (ytm/search.py lines 75–82). -/
structure SearchHit where
  file : List Char
  title : List Char
  line_number : Nat
  line : List Char
  context : List (List Char)
  timestamp : Option (List Char)
deriving DecidableEq

/-- Case folding used to model `re.IGNORECASE` (ASCII, like `Char.toLower`). -/
def lowerIf (caseSensitive : Bool) (l : List Char) : List Char :=
  if caseSensitive then l else l.map Char.toLower

/-- Substring containment, the effect of searching for `re.escape(keyword)`. -/
def containsSub (needle : List Char) : List Char → Bool
  | [] => needle.isEmpty
  | c :: rest => needle.isPrefixOf (c :: rest) || containsSub needle rest

def lineMatches (caseSensitive : Bool) (kw line : List Char) : Bool :=
  containsSub (lowerIf caseSensitive kw) (lowerIf caseSensitive line)

def isDigitCh (c : Char) : Bool :=
  '0' ≤ c && c ≤ '9'

/-- The optional `(?::\d{2})?` tail of the timestamp pattern followed by the
closing backtick, tried greedily (present first). -/
def tsOptTail (base : List Char) (rest : List Char) : Option (List Char) :=
  (match rest with
   | ':' :: e :: f :: '`' :: _ =>
     if isDigitCh e && isDigitCh f then some (base ++ [':', e, f]) else none
   | _ => none).orElse fun _ =>
    match rest with
    | '`' :: _ => some base
    | _ => none

/-- The two-digit-hour alternative of `\d{1,2}:\d{2}...` (greedy first). -/
def tsTwoDigit (l : List Char) : Option (List Char) :=
  match l with
  | a :: b :: ':' :: c :: d :: rest =>
    if isDigitCh a && isDigitCh b && isDigitCh c && isDigitCh d then
      tsOptTail [a, b, ':', c, d] rest
    else none
  | _ => none

/-- The one-digit alternative, tried after the two-digit one fails. -/
def tsOneDigit (l : List Char) : Option (List Char) :=
  match l with
  | a :: ':' :: c :: d :: rest =>
    if isDigitCh a && isDigitCh c && isDigitCh d then
      tsOptTail [a, ':', c, d] rest
    else none
  | _ => none

def tsAfterTick (l : List Char) : Option (List Char) :=
  (tsTwoDigit l).orElse fun _ => tsOneDigit l

/-- `re.search` of the timestamp pattern of ytm/search.py line 66: the
leftmost backtick opening a `D{1,2}:DD(:DD)?` timestamp closed by a
backtick, returning the captured group. -/
def findTsInLine : List Char → Option (List Char)
  | [] => none
  | c :: rest =>
    if c = '`' then
      match tsAfterTick rest with
      | some g => some g
      | none => findTsInLine rest
    else findTsInLine rest

/-- Python `s.replace(old, new)` (all occurrences); the fuel argument keeps
the recursion structural and any fuel above the length is enough. -/
def replaceAllGo (needle repl : List Char) : Nat → List Char → List Char
  | 0, l => l
  | _ + 1, [] => []
  | fuel + 1, c :: rest =>
    if needle.isPrefixOf (c :: rest) && !needle.isEmpty then
      repl ++ replaceAllGo needle repl fuel (List.drop (needle.length - 1) rest)
    else c :: replaceAllGo needle repl fuel rest

def replaceAll (needle repl l : List Char) : List Char :=
  replaceAllGo needle repl (l.length + 1) l

/-- The per-file title of the search engine (ytm/search.py lines 57–60). -/
def fileTitle (f : MDFile) : List Char :=
  let base := replaceAll ".md".data [] f.name
  match f.lines with
  | [] => base
  | l0 :: _ => if "# ".data.isPrefixOf l0 then pyStrip (l0.drop 2) else base

/-- One result dict of ytm/search.py lines 64–82: the rstripped match line,
the rstripped context window `lines[max(0,i-ctx) : min(len,i+ctx+1)]`, and
the extracted timestamp. -/
def mkHit (f : MDFile) (title : List Char) (ctx : Nat) (i : Nat) (line : List Char) : SearchHit :=
  let s := i - ctx
  let e := min f.lines.length (i + ctx + 1)
  { file := f.name
    title := title
    line_number := i + 1
    line := pyRstrip line
    context := ((f.lines.drop s).take (e - s)).map pyRstrip
    timestamp := findTsInLine line }

/-- The line loop of one file (ytm/search.py lines 62–86) over line indices,
appending to the global result list and returning early (`true`) as soon as
`max_results` is reached — the check sits after the append. -/
def scanFileGo (cs : Bool) (kw : List Char) (ctx maxR : Nat) (f : MDFile) (title : List Char) :
    List Nat → List SearchHit → List SearchHit × Bool
  | [], acc => (acc, false)
  | i :: is, acc =>
    let line := f.lines.getD i []
    if lineMatches cs kw line then
      let acc2 := acc ++ [mkHit f title ctx i line]
      if maxR ≤ acc2.length then (acc2, true)
      else scanFileGo cs kw ctx maxR f title is acc2
    else scanFileGo cs kw ctx maxR f title is acc

/-- The file loop of ytm/search.py lines 52–93. -/
def scanFilesGo (cs : Bool) (kw : List Char) (ctx maxR : Nat) :
    List MDFile → List SearchHit → List SearchHit
  | [], acc => acc
  | f :: fs, acc =>
    match scanFileGo cs kw ctx maxR f (fileTitle f) (List.range f.lines.length) acc with
    | (acc2, true) => acc2
    | (acc2, false) => scanFilesGo cs kw ctx maxR fs acc2

/-- `search_transcripts` (ytm/search.py lines 17–93) over an in-memory
corpus; a blank keyword and an empty corpus return the empty list at once
(lines 37–44).  `max_results` is modelled as `Nat`: the source compares with
`>=` after appending, so every nonpositive Python value behaves as 0. -/
def search_transcripts (files : List MDFile) (kw : List Char)
    (caseSensitive : Bool) (ctx maxR : Nat) : List SearchHit :=
  if pyStrip kw = [] then []
  else if files = [] then []
  else scanFilesGo caseSensitive kw ctx maxR files []

/-! Derived (specification-side) definitions used to state properties. -/

/-- The entries kept by the SRT writer, paired with their rendered text. -/
def keptEntries (entries : List Entry) : List (List Char × Entry) :=
  entries.filterMap fun e =>
    let t := pyStrip (replaceNewline e.text.data)
    if t = [] then none else some (t, e)

/-- Sequential numbering of already-filtered cues from a given index. -/
def numberCues : Nat → List (List Char × Entry) → List Char
  | _, [] => []
  | idx, te :: rest => srtCue idx te.1 te.2 ++ numberCues (idx + 1) rest

/-- The sum of the three counters of a fetch tally. -/
def tallyTotal (t : Tally) : Nat :=
  t.success + t.failed + t.skipped

/-- Whether eleven consecutive id-alphabet characters occur anywhere. -/
def hasRun11 : List Char → Bool
  | [] => false
  | c :: rest => (take11Ids (c :: rest)).isSome || hasRun11 rest

/-- The matches of one file at the given line indices (no result cap). -/
def hitsAt (cs : Bool) (kw : List Char) (ctx : Nat) (f : MDFile) (title : List Char)
    (idxs : List Nat) : List SearchHit :=
  idxs.filterMap fun i =>
    let line := f.lines.getD i []
    if lineMatches cs kw line then some (mkHit f title ctx i line) else none

/-- All matches of one file, in line order (no result cap). -/
def fileHits (cs : Bool) (kw : List Char) (ctx : Nat) (f : MDFile) : List SearchHit :=
  hitsAt cs kw ctx f (fileTitle f) (List.range f.lines.length)

/-- All matches of the corpus in file order then line order (no cap). -/
def allHits (cs : Bool) (kw : List Char) (ctx : Nat) (files : List MDFile) : List SearchHit :=
  (files.map (fileHits cs kw ctx)).flatten

/-- The (timestamp, text) pairs the Markdown writer emits: one per entry
whose text is nonempty after newline collapsing and trimming. -/
def writtenPairs (entries : List Entry) : List (List Char × List Char) :=
  entries.filterMap fun e =>
    let t := pyStrip (replaceNewline e.text.data)
    if t = [] then none else some (format_timestamp e.start, t)

/-- A channel environment with no API client and no pre-existing files. -/
def basicEnv (enum : Option (List Video)) (tr : List Char → Option (List Entry))
    (sv : List Char → Option (List Char)) : ChannelEnv :=
  { enum := enum
    apiActive := false
    apiTitle := fun _ => none
    existsFile := fun _ _ => false
    transcript := tr
    savePath := sv }

/-- A concrete manually-created English track. -/
def manualTrack : Track :=
  ⟨"en", false, [⟨"manual transcript line", 0, some 2⟩]⟩

/-- A concrete auto-generated English track. -/
def generatedTrack : Track :=
  ⟨"en", true, [⟨"generated transcript line", 0, some 2⟩]⟩

/-- Every character is basic ASCII (code point below 128). -/
def allAscii (l : List Char) : Bool :=
  l.all (fun c => c.toNat < 128)

/-- No two adjacent characters are both collapsible: the shape of the output
of the run-collapsing stage of `clean_filename`. -/
def sepChain (l : List Char) : Prop :=
  List.Chain' (fun a b => ¬(isCollapsible a = true ∧ isCollapsible b = true)) l

/-! Theorems. -/

theorem mapIdOn {α : Type} (f : α → α) :
    ∀ (l : List α), (∀ c ∈ l, f c = c) → l.map f = l := by
  intro l
  induction l with
  | nil => intro _; rfl
  | cons c r ih =>
    intro h
    simp only [List.map_cons]
    rw [h c (by simp), ih (fun x hx => h x (by simp [hx]))]

theorem mem_replaceInvalid {l : List Char} {c : Char} (h : c ∈ replaceInvalid l) :
    c = '_' ∨ (c ∈ l ∧ isInvalidChar c = false) := by
  unfold replaceInvalid at h
  obtain ⟨a, ha, heq⟩ := List.mem_map.mp h
  by_cases hinv : isInvalidChar a = true
  · rw [if_pos hinv] at heq
    left
    exact heq.symm
  · rw [if_neg hinv] at heq
    right
    subst heq
    exact ⟨ha, by simpa using hinv⟩

theorem replaceInvalid_ascii {l : List Char} (hl : allAscii l = true) :
    allAscii (replaceInvalid l) = true := by
  rw [allAscii, List.all_eq_true] at hl ⊢
  intro c hc
  rcases mem_replaceInvalid hc with rfl | ⟨hm, _⟩
  · decide
  · exact hl c hm

theorem replaceNbsp_id_of_ascii (l : List Char) (h : allAscii l = true) :
    replaceNbsp l = l := by
  rw [allAscii, List.all_eq_true] at h
  apply mapIdOn
  intro c hc
  have hlt : c.toNat < 128 := by simpa using h c hc
  rw [if_neg]
  intro heq
  rw [heq] at hlt
  exact absurd hlt (by decide)

theorem asciiOnly_id_of_ascii (l : List Char) (h : allAscii l = true) :
    asciiOnly l = l := by
  rw [allAscii, List.all_eq_true] at h
  apply mapIdOn
  intro c hc
  rw [if_pos (by simpa using h c hc)]

theorem collapseGo_mem :
    ∀ (l : List Char) (b : Bool) (c : Char), c ∈ collapseGo b l →
      c = ' ' ∨ (c ∈ l ∧ isCollapsible c = false) := by
  intro l
  induction l with
  | nil =>
    intro b c h
    simp [collapseGo] at h
  | cons a rest ih =>
    intro b c h
    unfold collapseGo at h
    by_cases ha : isCollapsible a = true
    · rw [if_pos ha] at h
      cases b with
      | true =>
        rcases ih true c h with h1 | ⟨h1, h2⟩
        · exact Or.inl h1
        · exact Or.inr ⟨List.mem_cons_of_mem _ h1, h2⟩
      | false =>
        rcases List.mem_cons.mp h with rfl | hm
        · exact Or.inl rfl
        · rcases ih true c hm with h1 | ⟨h1, h2⟩
          · exact Or.inl h1
          · exact Or.inr ⟨List.mem_cons_of_mem _ h1, h2⟩
    · rw [if_neg ha] at h
      rcases List.mem_cons.mp h with rfl | hm
      · exact Or.inr ⟨List.mem_cons_self _ _, by simpa using ha⟩
      · rcases ih false c hm with h1 | ⟨h1, h2⟩
        · exact Or.inl h1
        · exact Or.inr ⟨List.mem_cons_of_mem _ h1, h2⟩

theorem collapseGo_head_true :
    ∀ (l : List Char) (c : Char), (collapseGo true l).head? = some c →
      isCollapsible c = false := by
  intro l
  induction l with
  | nil =>
    intro c h
    simp [collapseGo] at h
  | cons a rest ih =>
    intro c h
    unfold collapseGo at h
    by_cases ha : isCollapsible a = true
    · rw [if_pos ha] at h
      exact ih c h
    · rw [if_neg ha] at h
      simp at h
      subst h
      simpa using ha

theorem collapseGo_chain : ∀ (l : List Char) (b : Bool), sepChain (collapseGo b l) := by
  intro l
  induction l with
  | nil =>
    intro b
    simp [collapseGo, sepChain]
  | cons a rest ih =>
    intro b
    unfold collapseGo
    by_cases ha : isCollapsible a = true
    · rw [if_pos ha]
      cases b with
      | true =>
        rw [if_pos rfl]
        exact ih true
      | false =>
        rw [if_neg (by simp)]
        rw [sepChain, List.chain'_cons']
        constructor
        · intro d hd hcon
          rw [Option.mem_def] at hd
          rw [collapseGo_head_true rest d hd] at hcon
          exact absurd hcon.2 (by simp)
        · exact ih true
    · rw [if_neg ha]
      rw [sepChain, List.chain'_cons']
      constructor
      · intro d _ hcon
        exact ha hcon.1
      · exact ih false

theorem collapse_stable :
    ∀ (l : List Char), (∀ c ∈ l, isCollapsible c = true → c = ' ') → sepChain l →
      collapseGo false l = l := by
  intro l
  induction l with
  | nil =>
    intro _ _
    rfl
  | cons a rest ih =>
    intro h1 hc
    unfold collapseGo
    by_cases ha : isCollapsible a = true
    · rw [if_pos ha]
      have haSpace : a = ' ' := h1 a (by simp) ha
      have hTrueFalse : collapseGo true rest = collapseGo false rest := by
        cases rest with
        | nil => rfl
        | cons d r2 =>
          have hd : isCollapsible d = false := by
            rw [sepChain, List.chain'_cons'] at hc
            have hr := hc.1 d (by simp)
            by_cases hdc : isCollapsible d = true
            · exact absurd ⟨ha, hdc⟩ hr
            · simpa using hdc
          unfold collapseGo
          rw [if_neg (by simp [hd]), if_neg (by simp [hd])]
      rw [if_neg (by simp), hTrueFalse]
      rw [ih (fun c hcm hcc => h1 c (by simp [hcm]) hcc) (List.Chain'.tail hc)]
      rw [haSpace]
    · rw [if_neg ha]
      congr 1
      exact ih (fun c hcm hcc => h1 c (by simp [hcm]) hcc) (List.Chain'.tail hc)

theorem dropWhile_head_not (p : Char → Bool) :
    ∀ (l : List Char) (c : Char), (l.dropWhile p).head? = some c → p c = false := by
  intro l
  induction l with
  | nil =>
    intro c h
    simp at h
  | cons a rest ih =>
    intro c h
    rw [List.dropWhile_cons] at h
    by_cases ha : p a = true
    · rw [if_pos ha] at h
      exact ih c h
    · rw [if_neg ha] at h
      simp at h
      subst h
      simpa using ha

theorem rdropWhile_head (p : Char → Bool) (m : List Char) (c : Char)
    (h : (m.rdropWhile p).head? = some c) : m.head? = some c := by
  obtain ⟨t, ht⟩ := List.rdropWhile_prefix p m
  rw [← ht]
  cases hr : m.rdropWhile p with
  | nil =>
    rw [hr] at h
    simp at h
  | cons d r2 =>
    rw [hr] at h
    simp at h
    simp [h]

theorem stripBoth_head (p : Char → Bool) (l : List Char) (c : Char)
    (h : ((l.dropWhile p).rdropWhile p).head? = some c) : p c = false :=
  dropWhile_head_not p l c (rdropWhile_head p (l.dropWhile p) c h)

theorem stripBoth_last (p : Char → Bool) (l : List Char) (c : Char)
    (h : ((l.dropWhile p).rdropWhile p).getLast? = some c) : p c = false := by
  rw [List.rdropWhile] at h
  rw [List.getLast?_reverse] at h
  exact dropWhile_head_not p (l.dropWhile p).reverse c h

theorem stripBoth_id (p : Char → Bool) (l : List Char)
    (hh : ∀ c, l.head? = some c → p c = false)
    (hl : ∀ c, l.getLast? = some c → p c = false) :
    (l.dropWhile p).rdropWhile p = l := by
  have h1 : l.dropWhile p = l := by
    cases l with
    | nil => rfl
    | cons a r =>
      rw [List.dropWhile_cons, if_neg (by simp [hh a (by simp)])]
  rw [h1]
  rw [List.rdropWhile_eq_self_iff]
  intro hne
  have := hl (l.getLast hne) (List.getLast?_eq_getLast l hne)
  simp [this]

theorem stripBoth_subset (p : Char → Bool) (l : List Char) :
    (l.dropWhile p).rdropWhile p ⊆ l :=
  (((List.rdropWhile_prefix p (l.dropWhile p)).sublist).trans
    (List.dropWhile_sublist p)).subset

theorem chain'_of_append_left {α : Type} {R : α → α → Prop} {l1 l2 : List α}
    (h : List.Chain' R (l1 ++ l2)) : List.Chain' R l1 :=
  (List.chain'_append.mp h).1

theorem chain'_of_append_right {α : Type} {R : α → α → Prop} {l1 l2 : List α}
    (h : List.Chain' R (l1 ++ l2)) : List.Chain' R l2 :=
  (List.chain'_append.mp h).2.1

theorem stripBoth_chain {R : Char → Char → Prop} (p : Char → Bool) (l : List Char)
    (h : List.Chain' R l) : List.Chain' R ((l.dropWhile p).rdropWhile p) := by
  have h1 : List.Chain' R (l.dropWhile p) := by
    obtain ⟨t, ht⟩ := List.dropWhile_suffix p (l := l)
    exact chain'_of_append_right (ht ▸ h)
  obtain ⟨t, ht⟩ := List.rdropWhile_prefix p (l.dropWhile p)
  exact chain'_of_append_left (ht ▸ h1)

/-- Fixpoint lemma: a string with the shape of a no-truncation
`clean_filename` output is returned unchanged by another pass. -/
theorem clean_fix (nfkd : List Char → List Char)
    (hid : ∀ s : List Char, allAscii s = true → nfkd s = s)
    (y : List Char)
    (hne : y ≠ [])
    (hascii : allAscii y = true)
    (hnoinv : ∀ c ∈ y, isInvalidChar c = false)
    (hcoll : ∀ c ∈ y, isCollapsible c = true → c = ' ')
    (hchain : sepChain y)
    (hhead : ∀ c, y.head? = some c → isStripChar c = false)
    (hlast : ∀ c, y.getLast? = some c → isStripChar c = false)
    (hlen : y.length ≤ 150) :
    clean_filename nfkd y = y := by
  have hps : pyStrip y = y := by
    apply stripBoth_id
    · intro c hc
      by_cases hp : isPySpace c = true
      · have hcl : isCollapsible c = true := by simp [isCollapsible, hp]
        have hsp : c = ' ' := hcoll c (List.mem_of_mem_head? (by simp [hc])) hcl
        subst hsp
        have := hhead ' ' hc
        exact absurd this (by decide)
      · simpa using hp
    · intro c hc
      by_cases hp : isPySpace c = true
      · have hcl : isCollapsible c = true := by simp [isCollapsible, hp]
        have hmem : c ∈ y := List.mem_of_mem_getLast? (by simp [hc])
        have hsp : c = ' ' := hcoll c hmem hcl
        subst hsp
        have := hlast ' ' hc
        exact absurd this (by decide)
      · simpa using hp
  unfold clean_filename
  rw [hps, if_neg hne]
  have hri : replaceInvalid y = y :=
    mapIdOn _ y (fun c hc => if_neg (by simp [hnoinv c hc]))
  have hnf : nfkd y = y := hid y hascii
  have hnb : replaceNbsp y = y := replaceNbsp_id_of_ascii y hascii
  have hao : asciiOnly y = y := asciiOnly_id_of_ascii y hascii
  have hcr : collapseRuns y = y := collapse_stable y hcoll hchain
  have hst : stripEnds y = y := stripBoth_id isStripChar y hhead hlast
  have htr : truncate150 y = y := by
    unfold truncate150
    rw [if_neg (by omega)]
  simp only [hri, hnf, hnb, hao, hcr, hst, htr]
  rw [if_neg hne]

set_option maxRecDepth 8000 in
theorem clean_untitled (nfkd : List Char → List Char)
    (hid : ∀ s : List Char, allAscii s = true → nfkd s = s) :
    clean_filename nfkd untitled = untitled := by
  have h1 : replaceInvalid untitled = untitled := by decide
  have h2 : nfkd untitled = untitled := hid untitled (by decide)
  unfold clean_filename
  rw [if_neg (by decide)]
  simp only [h1, h2]
  decide

set_option maxRecDepth 100000 in
/-- C1 counterexample: the 150-character truncation can leave a trailing
period which a second pass strips — `clean_filename` is not idempotent.
The input is pure ASCII, where the embedding with `nfkd := id` models the
source exactly. -/
theorem claim1_counterexample :
    clean_filename id (clean_filename id (List.replicate 148 'a' ++ ". bb".data)) ≠
      clean_filename id (List.replicate 148 'a' ++ ". bb".data) ∧
    allAscii (List.replicate 148 'a' ++ ". bb".data) = true := by
  constructor
  · decide
  · decide

/-- C1 (amended): the sanitizer is idempotent on every ASCII input that does
not trigger the 150-character truncation (the text after the strip stage is
at most 150 characters long); truncation can leave a trailing period that a
second pass strips, breaking idempotency in general. -/
theorem claim1_idempotent_no_truncation :
    ∀ (nfkd : List Char → List Char) (l : List Char),
      (∀ s : List Char, allAscii s = true → nfkd s = s) →
      allAscii l = true →
      (stripEnds (collapseRuns (replaceInvalid l))).length ≤ 150 →
      clean_filename nfkd (clean_filename nfkd l) = clean_filename nfkd l := by
  intro nfkd l hid hascii hlen
  have hri_ascii : allAscii (replaceInvalid l) = true := replaceInvalid_ascii hascii
  have hnf : nfkd (replaceInvalid l) = replaceInvalid l := hid _ hri_ascii
  have hnb : replaceNbsp (replaceInvalid l) = replaceInvalid l :=
    replaceNbsp_id_of_ascii _ hri_ascii
  have hao : asciiOnly (replaceInvalid l) = replaceInvalid l :=
    asciiOnly_id_of_ascii _ hri_ascii
  by_cases h0 : pyStrip l = []
  · have hv : clean_filename nfkd l = untitled := by
      unfold clean_filename
      rw [if_pos h0]
    rw [hv]
    exact clean_untitled nfkd hid
  · have hpipe : truncate150 (stripEnds (collapseRuns (asciiOnly (replaceNbsp
        (nfkd (replaceInvalid l)))))) = stripEnds (collapseRuns (replaceInvalid l)) := by
      rw [hnf, hnb, hao]
      unfold truncate150
      rw [if_neg (by omega)]
    have hv : clean_filename nfkd l =
        (if stripEnds (collapseRuns (replaceInvalid l)) = [] then untitled
         else stripEnds (collapseRuns (replaceInvalid l))) := by
      unfold clean_filename
      rw [if_neg h0]
      simp only [hpipe]
    by_cases hse : stripEnds (collapseRuns (replaceInvalid l)) = []
    · rw [hv, if_pos hse]
      exact clean_untitled nfkd hid
    · rw [hv, if_neg hse]
      apply clean_fix nfkd hid _ hse
      · rw [allAscii, List.all_eq_true]
        intro c hc
        have hmem := stripBoth_subset isStripChar (collapseRuns (replaceInvalid l)) hc
        rcases collapseGo_mem (replaceInvalid l) false c hmem with rfl | ⟨hm, _⟩
        · decide
        · rw [allAscii, List.all_eq_true] at hri_ascii
          exact hri_ascii c hm
      · intro c hc
        have hmem := stripBoth_subset isStripChar (collapseRuns (replaceInvalid l)) hc
        rcases collapseGo_mem (replaceInvalid l) false c hmem with rfl | ⟨hm, hcf⟩
        · decide
        · rcases mem_replaceInvalid hm with rfl | ⟨_, hinv⟩
          · exact absurd hcf (by decide)
          · exact hinv
      · intro c hc hcl
        have hmem := stripBoth_subset isStripChar (collapseRuns (replaceInvalid l)) hc
        rcases collapseGo_mem (replaceInvalid l) false c hmem with rfl | ⟨_, hcf⟩
        · rfl
        · rw [hcl] at hcf
          exact absurd hcf (by simp)
      · exact stripBoth_chain isStripChar (collapseRuns (replaceInvalid l))
          (collapseGo_chain (replaceInvalid l) false)
      · intro c hc
        exact stripBoth_head isStripChar (collapseRuns (replaceInvalid l)) c hc
      · intro c hc
        exact stripBoth_last isStripChar (collapseRuns (replaceInvalid l)) c hc
      · exact hlen

theorem claim1_idempotent_no_truncation_witness :
    clean_filename id (clean_filename id "Hello: World".data) =
      clean_filename id "Hello: World".data :=
  claim1_idempotent_no_truncation id "Hello: World".data (fun _ _ => rfl)
    (by decide) (by decide)

theorem findTranscript_mem {tracks : List Track} :
    ∀ {langs : List String} {t : Track}, findTranscript tracks langs = some t → t ∈ tracks := by
  intro langs
  induction langs with
  | nil => intro t h; simp [findTranscript] at h
  | cons lg rest ih =>
    intro t h
    unfold findTranscript at h
    cases hf : tracks.find? (fun tr => tr.language = lg) with
    | some u =>
      rw [hf] at h
      cases h
      exact List.mem_of_find?_eq_some hf
    | none =>
      rw [hf] at h
      exact ih h

theorem findTranscript_some_of_mem {tracks : List Track} {m : Track} (hm : m ∈ tracks) :
    ∀ {langs : List String}, m.language ∈ langs → ∃ t, findTranscript tracks langs = some t := by
  intro langs
  induction langs with
  | nil => intro h; cases h
  | cons lg rest ih =>
    intro hlang
    unfold findTranscript
    cases hf : tracks.find? (fun tr => tr.language = lg) with
    | some u => exact ⟨u, rfl⟩
    | none =>
      rcases List.mem_cons.mp hlang with heq | hmem
      · exfalso
        have : (tracks.find? (fun tr => tr.language = lg)).isSome := by
          rw [List.find?_isSome]
          exact ⟨m, hm, by simp [heq]⟩
        rw [hf] at this
        simp at this
      · exact ih hmem

/-- C5: whenever a manually created track matching one of the requested
languages is available, `get_transcript` returns the content of a manual
track, never a generated one — whatever the order of the language list. -/
theorem claim5_manual_preferred :
    ∀ (tracks : List Track) (langs : List String) (m : Track),
      m ∈ tracks → m.isGenerated = false → m.language ∈ langs →
      ∃ t, t ∈ tracks ∧ t.isGenerated = false ∧
        get_transcript (some tracks) (some langs) = some t.content := by
  intro tracks langs m hm hgen hlang
  have hmf : m ∈ tracks.filter (fun t => !t.isGenerated) := by
    rw [List.mem_filter]
    exact ⟨hm, by rw [hgen]; rfl⟩
  obtain ⟨t, ht⟩ := findTranscript_some_of_mem hmf hlang
  have htmem := findTranscript_mem ht
  rw [List.mem_filter] at htmem
  refine ⟨t, htmem.1, ?_, ?_⟩
  · have := htmem.2
    cases hgval : t.isGenerated with
    | false => rfl
    | true => rw [hgval] at this; simp at this
  · show (match findTranscript (tracks.filter (fun t => !t.isGenerated)) langs with
      | some t => some t.content
      | none =>
        match findTranscript (tracks.filter (fun t => t.isGenerated)) langs with
        | some t => some t.content
        | none => none) = some t.content
    rw [ht]

theorem claim5_manual_preferred_witness :
    ∃ t, t ∈ [manualTrack, generatedTrack] ∧ t.isGenerated = false ∧
      get_transcript (some [manualTrack, generatedTrack]) (some ["en"]) = some t.content :=
  claim5_manual_preferred [manualTrack, generatedTrack] ["en"] manualTrack
    (by decide) rfl (by decide)

/-- C3 counterexample: with an API key given and a failing API title lookup,
the title resolution of `fetch_single_video_transcript` returns the bare
video id even though the enumeration source would have supplied a title. -/
theorem claim3_counterexample :
    resolveSingleTitle "dQw4w9WgXcQ".data (some "APIKEY") none (some "Actual Title".data) =
      "dQw4w9WgXcQ".data ∧
    ¬ resolveSingleTitle "dQw4w9WgXcQ".data (some "APIKEY") none (some "Actual Title".data) =
      "Actual Title".data := by
  constructor
  · rfl
  · decide

/-- C3 (amended): in single-video mode the enumeration-source lookup is only
attempted when no API key is given; with an API key, a failed lookup falls
back directly to the video id, ignoring the enumeration source. -/
theorem claim3_title_resolution_order :
    (∀ (vid : List Char) (k : String) (api s s' : Option (List Char)),
        resolveSingleTitle vid (some k) api s = resolveSingleTitle vid (some k) api s') ∧
    (∀ (vid : List Char) (k : String) (s : Option (List Char)),
        resolveSingleTitle vid (some k) none s = vid) ∧
    (∀ (vid : List Char) (api s : Option (List Char)),
        resolveSingleTitle vid none api s = s.getD vid) := by
  refine ⟨?_, ?_, ?_⟩
  · intro vid k api s s'
    cases api <;> rfl
  · intro vid k s
    rfl
  · intro vid api s
    rfl

/-- C4 counterexample: a failed channel enumeration and an empty channel
return the very same all-zero tally — the two outcomes are not
distinguishable, and no abort happens. -/
theorem claim4_counterexample :
    fetch_channel_transcripts (basicEnv none (fun _ => none) (fun _ => none)) "md" true 0 =
      fetch_channel_transcripts (basicEnv (some []) (fun _ => none) (fun _ => none)) "md" true 0 ∧
    fetch_channel_transcripts (basicEnv none (fun _ => none) (fun _ => none)) "md" true 0 =
      ⟨0, 0, 0⟩ :=
  ⟨rfl, rfl⟩

/-- C4 (amended): an enumeration failure is logged but returns the zero
tally, the same value as for an empty channel; the run is not aborted and
the two cases cannot be told apart from the returned tally. -/
theorem claim4_enumeration_failure_tally :
    ∀ (env env' : ChannelEnv) (fmt : String) (skip : Bool) (limit : Nat),
      env.enum = none → env'.enum = some [] →
      fetch_channel_transcripts env fmt skip limit = ⟨0, 0, 0⟩ ∧
      fetch_channel_transcripts env fmt skip limit =
        fetch_channel_transcripts env' fmt skip limit := by
  intro env env' fmt skip limit h h'
  unfold fetch_channel_transcripts
  rw [h, h']
  exact ⟨rfl, rfl⟩

theorem claim4_enumeration_failure_tally_witness :
    fetch_channel_transcripts (basicEnv none (fun _ => none) (fun _ => none)) "md" true 3 =
      ⟨0, 0, 0⟩ ∧
    fetch_channel_transcripts (basicEnv none (fun _ => none) (fun _ => none)) "md" true 3 =
      fetch_channel_transcripts (basicEnv (some []) (fun _ => none) (fun _ => none)) "md" true 3 :=
  claim4_enumeration_failure_tally _ _ "md" true 3 rfl rfl

theorem processVideo_total (env : ChannelEnv) (fmt : String) (skip : Bool)
    (t : Tally) (v : Video) :
    tallyTotal (processVideo env fmt skip t v) = tallyTotal t + 1 := by
  unfold processVideo tallyTotal
  by_cases hs : (skip && env.existsFile (channelTitle env v) fmt) = true
  · simp [hs] <;> omega
  · rcases htr : env.transcript v.id with _ | tl
    · simp [hs, htr] <;> omega
    · rcases tl with _ | ⟨e, es⟩
      · simp [hs, htr] <;> omega
      · rcases hsv : env.savePath v.id with _ | p
        · simp [hs, htr, hsv] <;> omega
        · simp [hs, htr, hsv] <;> omega

theorem foldl_processVideo_total (env : ChannelEnv) (fmt : String) (skip : Bool) :
    ∀ (l : List Video) (t0 : Tally),
      tallyTotal (l.foldl (processVideo env fmt skip) t0) = tallyTotal t0 + l.length := by
  intro l
  induction l with
  | nil => intro t0; simp
  | cons v rest ih =>
    intro t0
    rw [List.foldl_cons, ih, processVideo_total]
    simp
    omega

/-- C9: every iteration of the channel-fetch loop increments exactly one
counter, so the final tally sums to the number of processed videos — the
enumerated count, truncated to `limit` when positive. -/
theorem claim9_tally_conservation :
    ∀ (env : ChannelEnv) (fmt : String) (skip : Bool) (limit : Nat) (videos : List Video),
      env.enum = some videos →
      tallyTotal (fetch_channel_transcripts env fmt skip limit) =
        (if 0 < limit then videos.take limit else videos).length := by
  intro env fmt skip limit videos h
  unfold fetch_channel_transcripts
  rw [h]
  by_cases hv : videos = []
  · subst hv
    simp [tallyTotal]
  · simp only [if_neg hv]
    rw [foldl_processVideo_total]
    simp [tallyTotal]

theorem claim9_tally_conservation_witness :
    tallyTotal (fetch_channel_transcripts
      (basicEnv (some [⟨"vid00000001".data, "u".data, none⟩]) (fun _ => none) (fun _ => none))
      "md" true 0) = 1 := by
  have h := claim9_tally_conservation
    (basicEnv (some [⟨"vid00000001".data, "u".data, none⟩]) (fun _ => none) (fun _ => none))
    "md" true 0 [⟨"vid00000001".data, "u".data, none⟩] rfl
  simpa using h

/-- C7: SRT serialization numbers only the non-empty-text entries,
sequentially from 1; a cue's end time is `start + duration` with the
duration defaulting to 2.0; and the entry `start=5.0, duration=2.5` renders
the end time `00:00:07,500`. -/
theorem claim7_srt_serialization :
    (∀ entries : List Entry, write_srt entries = numberCues 1 (keptEntries entries)) ∧
    (∀ (idx : Nat) (text : List Char) (tx : String) (st : ℚ),
        srtCue idx text ⟨tx, st, none⟩ = srtCue idx text ⟨tx, st, some 2⟩) ∧
    (5 : ℚ) + 5 / 2 = mkRat 15 2 ∧
    srt_time (mkRat 15 2) = "00:00:07,500".data := by
  refine ⟨?_, ?_, ?_, ?_⟩
  · have key : ∀ (l : List Entry) (idx : Nat),
        writeSrtGo idx l = numberCues idx (keptEntries l) := by
      intro l
      induction l with
      | nil => intro idx; rfl
      | cons e rest ih =>
        intro idx
        by_cases h : pyStrip (replaceNewline e.text.data) = []
        · simp only [writeSrtGo, keptEntries, List.filterMap_cons, if_pos h]
          exact ih idx
        · simp only [writeSrtGo, keptEntries, List.filterMap_cons, if_neg h, numberCues]
          rw [ih]
          rfl
    intro entries
    exact key entries 1
  · intro idx text tx st
    rfl
  · norm_num
  · decide

/-- C10: an unknown format falls back to the `.md` extension and Markdown
content in `save_transcript`, and `file_already_exists` applies the same
extension fallback, so (for a nonempty title, which the orchestrator always
passes) the two path computations agree. -/
theorem claim10_unknown_format_fallback :
    ∀ (nfkd : List Char → List Char) (fmt : String) (title videoId url : List Char)
      (entries : List Entry),
      fmt ∉ knownFormats → title ≠ [] →
      extensionFor fmt = "md" ∧
      saveContent fmt title videoId url entries =
        SavedContent.md (write_markdown title url entries) ∧
      saveFilename nfkd title videoId fmt = existsFilename nfkd title fmt ∧
      existsFilename nfkd title fmt = clean_filename nfkd title ++ '.' :: "md".data := by
  intro nfkd fmt title videoId url entries hf ht
  have hmd : fmt ≠ "md" := by intro e; subst e; exact hf (by simp [knownFormats])
  have hjs : fmt ≠ "json" := by intro e; subst e; exact hf (by simp [knownFormats])
  have htx : fmt ≠ "txt" := by intro e; subst e; exact hf (by simp [knownFormats])
  have hsr : fmt ≠ "srt" := by intro e; subst e; exact hf (by simp [knownFormats])
  refine ⟨?_, ?_, ?_, ?_⟩
  · unfold extensionFor
    rw [if_neg hf]
  · unfold saveContent
    rw [if_neg hmd, if_neg hjs, if_neg htx, if_neg hsr]
  · unfold saveFilename existsFilename
    rw [if_neg ht]
  · unfold existsFilename extensionFor
    rw [if_neg hf]

theorem claim10_unknown_format_fallback_witness :
    extensionFor "xml" = "md" ∧
    saveContent "xml" "My Video".data "vid00000001".data "http://u".data [] =
      SavedContent.md (write_markdown "My Video".data "http://u".data []) ∧
    saveFilename id "My Video".data "vid00000001".data "xml" =
      existsFilename id "My Video".data "xml" ∧
    existsFilename id "My Video".data "xml" =
      clean_filename id "My Video".data ++ '.' :: "md".data :=
  claim10_unknown_format_fallback id "xml" "My Video".data "vid00000001".data "http://u".data []
    (by decide) (by decide)

theorem take11Ids_isSome_hasRun :
    ∀ (l : List Char) (i : Nat), (take11Ids (l.drop i)).isSome → hasRun11 l = true := by
  intro l
  induction l with
  | nil =>
    intro i h
    simp [take11Ids] at h
  | cons c rest ih =>
    intro i h
    cases i with
    | zero =>
      unfold hasRun11
      rw [List.drop_zero] at h
      simp [h]
    | succ i' =>
      unfold hasRun11
      rw [List.drop_succ_cons] at h
      rw [ih i' h]
      simp

theorem searchMarker_hasRun :
    ∀ (m l g : List Char), searchMarker m l = some g → hasRun11 l = true := by
  intro m l
  induction l with
  | nil =>
    intro g h
    simp [searchMarker] at h
  | cons c rest ih =>
    intro g h
    unfold searchMarker at h
    by_cases hp : m.isPrefixOf (c :: rest)
    · rw [if_pos hp] at h
      cases ht : take11Ids (List.drop m.length (c :: rest)) with
      | some g' =>
        exact take11Ids_isSome_hasRun (c :: rest) m.length (by rw [ht]; rfl)
      | none =>
        rw [ht] at h
        unfold hasRun11
        rw [ih g h]
        simp
    · rw [if_neg hp] at h
      unfold hasRun11
      rw [ih g h]
      simp

theorem vAt_take11 :
    ∀ (l : List Char) (j : Nat) (g : List Char),
      vAt l j = some g → (take11Ids (l.drop (j + 2))).isSome := by
  intro l j g h
  unfold vAt at h
  cases hd : l.drop j with
  | nil => rw [hd] at h; simp at h
  | cons c1 t1 =>
    cases t1 with
    | nil => rw [hd] at h; simp at h
    | cons c2 rest =>
      rw [hd] at h
      by_cases hc : (c1 = 'v' && c2 = '=') = true
      · simp only [hc, if_true] at h
        have hdd : l.drop (j + 2) = rest := by
          have h2 : l.drop (j + 2) = (l.drop j).drop 2 := by
            rw [List.drop_drop]
          rw [h2, hd]
          rfl
        rw [hdd, h]
        rfl
      · simp [hc] at h

theorem findVFrom_vAt :
    ∀ (j : Nat) (l g : List Char), findVFrom l j = some g → ∃ k, vAt l k = some g := by
  intro j
  induction j with
  | zero => intro l g h; exact ⟨0, h⟩
  | succ j' ih =>
    intro l g h
    unfold findVFrom at h
    cases hv : vAt l (j' + 1) with
    | some g' =>
      rw [hv] at h
      cases h
      exact ⟨j' + 1, hv⟩
    | none =>
      rw [hv] at h
      exact ih l g h

theorem findVGreedy_take11 :
    ∀ (l g : List Char), findVGreedy l = some g →
      ∃ k, (take11Ids (l.drop (k + 2))).isSome := by
  intro l g h
  unfold findVGreedy at h
  cases hw : (l.takeWhile (fun c => ¬ c = '\n')).length with
  | zero => rw [hw] at h; simp at h
  | succ w =>
    rw [hw] at h
    obtain ⟨k, hk⟩ := findVFrom_vAt w l g h
    exact ⟨k, vAt_take11 l k g hk⟩

theorem searchWatch_hasRun :
    ∀ (l g : List Char), searchWatch l = some g → hasRun11 l = true := by
  intro l
  induction l with
  | nil =>
    intro g h
    simp [searchWatch] at h
  | cons c rest ih =>
    intro g h
    unfold searchWatch at h
    by_cases hp : watchMarker.isPrefixOf (c :: rest)
    · rw [if_pos hp] at h
      cases hf : findVGreedy (List.drop 18 (c :: rest)) with
      | some g' =>
        obtain ⟨k, hk⟩ := findVGreedy_take11 (List.drop 18 (c :: rest)) g' hf
        rw [List.drop_drop] at hk
        exact take11Ids_isSome_hasRun (c :: rest) (18 + (k + 2)) hk
      | none =>
        rw [hf] at h
        unfold hasRun11
        rw [ih g h]
        simp
    · rw [if_neg hp] at h
      unfold hasRun11
      rw [ih g h]
      simp

theorem bare11_hasRun :
    ∀ (t : List Char), (t.length = 11 && t.all isIdChar) = true → hasRun11 t = true := by
  intro t h
  rw [Bool.and_eq_true] at h
  have hlen : t.length = 11 := by
    have := h.1
    simpa using this
  have hsome : (take11Ids t).isSome := by
    have htake : t.take 11 = t := List.take_of_length_le (by omega)
    simp [take11Ids, htake, hlen, h.2]
  cases t with
  | nil => simp at hlen
  | cons c rest =>
    unfold hasRun11
    rw [hsome]
    simp

/-- C2 counterexample: a 12-character id-alphabet run after the `youtu.be/`
marker is partially matched — `extract_video_id` returns its first eleven
characters instead of `None`. -/
theorem claim2_counterexample :
    extract_video_id "https://youtu.be/abcdefghijkl" = some "abcdefghijk" ∧
    "abcdefghijkl".data.length = 12 ∧
    "abcdefghijkl".data.all isIdChar = true := by
  refine ⟨by decide, by decide, by decide⟩

/-- C2 (amended): `extract_video_id` returns `None` whenever the stripped
input contains no run of eleven consecutive id-alphabet characters — in
particular for null/empty input, for no match, and for 10-character runs
after a URL marker.  (A 12-character run, however, is partially matched:
its first eleven characters are returned.) -/
theorem claim2_no_run_none :
    ∀ s : String, hasRun11 (pyStrip s.data) = false → extract_video_id s = none := by
  intro s h
  unfold extract_video_id
  by_cases he : s.data = []
  · rw [if_pos he]
  · rw [if_neg he]
    have h1 : searchWatch (pyStrip s.data) = none := by
      cases hw : searchWatch (pyStrip s.data) with
      | none => rfl
      | some g => rw [searchWatch_hasRun (pyStrip s.data) g hw] at h; simp at h
    have h2 : searchMarker "youtu.be/".data (pyStrip s.data) = none := by
      cases hw : searchMarker "youtu.be/".data (pyStrip s.data) with
      | none => rfl
      | some g => rw [searchMarker_hasRun _ (pyStrip s.data) g hw] at h; simp at h
    have h3 : searchMarker "youtube.com/shorts/".data (pyStrip s.data) = none := by
      cases hw : searchMarker "youtube.com/shorts/".data (pyStrip s.data) with
      | none => rfl
      | some g => rw [searchMarker_hasRun _ (pyStrip s.data) g hw] at h; simp at h
    have h4 : searchMarker "youtube.com/embed/".data (pyStrip s.data) = none := by
      cases hw : searchMarker "youtube.com/embed/".data (pyStrip s.data) with
      | none => rfl
      | some g => rw [searchMarker_hasRun _ (pyStrip s.data) g hw] at h; simp at h
    have h5 : ((pyStrip s.data).length = 11 && (pyStrip s.data).all isIdChar) = false := by
      cases hb : ((pyStrip s.data).length = 11 && (pyStrip s.data).all isIdChar) with
      | false => rfl
      | true => rw [bare11_hasRun (pyStrip s.data) hb] at h; simp at h
    simp [h1, h2, h3, h4, h5, Option.orElse]

theorem claim2_no_run_none_witness :
    extract_video_id "not_a_url" = none :=
  claim2_no_run_none "not_a_url" (by decide)

theorem hitsAt_nil (cs : Bool) (kw : List Char) (ctx : Nat) (f : MDFile) (title : List Char) :
    hitsAt cs kw ctx f title [] = [] :=
  rfl

theorem hitsAt_cons (cs : Bool) (kw : List Char) (ctx : Nat) (f : MDFile) (title : List Char)
    (i : Nat) (is : List Nat) :
    hitsAt cs kw ctx f title (i :: is) =
      (if lineMatches cs kw (f.lines.getD i []) = true
       then [mkHit f title ctx i (f.lines.getD i [])] else []) ++ hitsAt cs kw ctx f title is := by
  simp only [hitsAt, List.filterMap_cons]
  by_cases hm : lineMatches cs kw (f.lines.getD i []) = true
  · rw [if_pos hm, if_pos hm]
    rfl
  · rw [if_neg hm, if_neg hm]
    rfl

theorem scanFileGo_spec (cs : Bool) (kw : List Char) (ctx maxR : Nat) (f : MDFile)
    (title : List Char) :
    ∀ (idxs : List Nat) (acc : List SearchHit), acc.length < maxR →
      scanFileGo cs kw ctx maxR f title idxs acc =
        ((acc ++ hitsAt cs kw ctx f title idxs).take maxR,
         decide (maxR ≤ (acc ++ hitsAt cs kw ctx f title idxs).length)) := by
  intro idxs
  induction idxs with
  | nil =>
    intro acc hacc
    rw [hitsAt_nil, List.append_nil]
    simp only [scanFileGo]
    rw [List.take_of_length_le (Nat.le_of_lt hacc)]
    simp
    omega
  | cons i is ih =>
    intro acc hacc
    rw [hitsAt_cons]
    by_cases hm : lineMatches cs kw (f.lines.getD i []) = true
    · rw [if_pos hm]
      simp only [scanFileGo]
      rw [if_pos hm]
      have hlen1 : (acc ++ [mkHit f title ctx i (f.lines.getD i [])]).length =
          acc.length + 1 := by
        simp
      by_cases hstop : maxR ≤ (acc ++ [mkHit f title ctx i (f.lines.getD i [])]).length
      · rw [if_pos hstop]
        rw [← List.append_assoc]
        rw [List.take_append_of_le_length hstop]
        rw [List.take_of_length_le (by omega)]
        have hdec : decide (maxR ≤ ((acc ++ [mkHit f title ctx i (f.lines.getD i [])]) ++
            hitsAt cs kw ctx f title is).length) = true := by
          rw [decide_eq_true_eq, List.length_append]
          omega
        rw [hdec]
      · rw [if_neg hstop]
        rw [ih _ (by omega)]
        rw [← List.append_assoc]
    · rw [if_neg hm, List.nil_append]
      simp only [scanFileGo]
      rw [if_neg hm]
      exact ih acc hacc

theorem scanFilesGo_spec (cs : Bool) (kw : List Char) (ctx maxR : Nat) :
    ∀ (files : List MDFile) (acc : List SearchHit), acc.length < maxR →
      scanFilesGo cs kw ctx maxR files acc = (acc ++ allHits cs kw ctx files).take maxR := by
  intro files
  induction files with
  | nil =>
    intro acc hacc
    simp only [scanFilesGo, allHits, List.map_nil, List.flatten_nil, List.append_nil]
    rw [List.take_of_length_le (Nat.le_of_lt hacc)]
  | cons f fs ih =>
    intro acc hacc
    unfold scanFilesGo
    rw [scanFileGo_spec cs kw ctx maxR f (fileTitle f) (List.range f.lines.length) acc hacc]
    by_cases hstop : maxR ≤ (acc ++ fileHits cs kw ctx f).length
    · have hd : decide (maxR ≤ (acc ++ hitsAt cs kw ctx f (fileTitle f)
          (List.range f.lines.length)).length) = true := by
        simp only [decide_eq_true_eq]
        exact hstop
      rw [hd]
      have hflat : allHits cs kw ctx (f :: fs) =
          fileHits cs kw ctx f ++ allHits cs kw ctx fs := by
        simp [allHits]
      rw [hflat, ← List.append_assoc]
      rw [List.take_append_of_le_length hstop]
      rfl
    · have hd : decide (maxR ≤ (acc ++ hitsAt cs kw ctx f (fileTitle f)
          (List.range f.lines.length)).length) = false := by
        simp only [decide_eq_false_iff_not]
        exact hstop
      rw [hd]
      have htk : (acc ++ fileHits cs kw ctx f).take maxR = acc ++ fileHits cs kw ctx f :=
        List.take_of_length_le (by omega)
      show scanFilesGo cs kw ctx maxR fs ((acc ++ fileHits cs kw ctx f).take maxR) = _
      rw [htk, ih _ (by omega)]
      have hflat : allHits cs kw ctx (f :: fs) =
          fileHits cs kw ctx f ++ allHits cs kw ctx fs := by
        simp [allHits]
      rw [hflat, ← List.append_assoc]

/-- C8 counterexample: with `max_results = 0` and a matching corpus, the
search returns one result — the cap check sits after the append, so a
nonpositive cap still yields a result and the cap is exceeded. -/
theorem claim8_counterexample :
    (search_transcripts [⟨"a.md".data, ["hello machine learning\n".data]⟩]
        "machine".data false 2 0).length = 1 ∧
    ¬ (search_transcripts [⟨"a.md".data, ["hello machine learning\n".data]⟩]
        "machine".data false 2 0).length ≤ 0 := by
  refine ⟨by decide, by decide⟩

/-- C8 (amended): for every `max_results ≥ 1` the search returns exactly the
first `max_results` matches of the corpus in file order then line order — a
global cap applied even mid-file — and in particular at most `max_results`
results.  (For `max_results ≤ 0` the cap is checked only after the first
append, so one result is returned when a match exists.) -/
theorem claim8_global_cap :
    ∀ (files : List MDFile) (kw : List Char) (cs : Bool) (ctx maxR : Nat),
      1 ≤ maxR →
      search_transcripts files kw cs ctx maxR =
        (if pyStrip kw = [] then [] else (allHits cs kw ctx files).take maxR) ∧
      (search_transcripts files kw cs ctx maxR).length ≤ maxR := by
  intro files kw cs ctx maxR hmax
  have main : search_transcripts files kw cs ctx maxR =
      (if pyStrip kw = [] then [] else (allHits cs kw ctx files).take maxR) := by
    unfold search_transcripts
    by_cases hk : pyStrip kw = []
    · rw [if_pos hk, if_pos hk]
    · rw [if_neg hk, if_neg hk]
      by_cases hf : files = []
      · rw [if_pos hf]
        subst hf
        simp [allHits]
      · rw [if_neg hf]
        have h := scanFilesGo_spec cs kw ctx maxR files []
          (by simp only [List.length_nil]; omega)
        simpa using h
  refine ⟨main, ?_⟩
  rw [main]
  by_cases hk : pyStrip kw = []
  · rw [if_pos hk]
    simp
  · rw [if_neg hk]
    rw [List.length_take]
    exact min_le_left _ _

theorem claim8_global_cap_witness :
    search_transcripts
        [⟨"a.md".data, ["hello machine learning\n".data, "machine again\n".data]⟩]
        "machine".data false 2 1 =
      (if pyStrip "machine".data = [] then []
       else (allHits false "machine".data 2
          [⟨"a.md".data, ["hello machine learning\n".data, "machine again\n".data]⟩]).take 1) ∧
    (search_transcripts
        [⟨"a.md".data, ["hello machine learning\n".data, "machine again\n".data]⟩]
        "machine".data false 2 1).length ≤ 1 :=
  claim8_global_cap
    [⟨"a.md".data, ["hello machine learning\n".data, "machine again\n".data]⟩]
    "machine".data false 2 1 (by omega)

theorem pyReadLinesGo_append (a : List Char) :
    ∀ (cur rest : List Char), (∀ c ∈ a, c ≠ '\n') →
      pyReadLinesGo cur (a ++ '\n' :: rest) =
        ((cur.reverse ++ a) ++ ['\n']) :: pyReadLinesGo [] rest := by
  induction a with
  | nil =>
    intro cur rest _
    simp [pyReadLinesGo]
  | cons c a2 ih =>
    intro cur rest h
    have hc : c ≠ '\n' := h c (by simp)
    show pyReadLinesGo cur (c :: (a2 ++ '\n' :: rest)) = _
    unfold pyReadLinesGo
    rw [if_neg hc]
    rw [ih (c :: cur) rest (fun x hx => h x (by simp [hx]))]
    congr 1
    · simp [List.append_assoc]
    · cases rest with
      | nil => rfl
      | cons r rs => rfl

theorem pyReadLines_append (a rest : List Char) (h : ∀ c ∈ a, c ≠ '\n') :
    pyReadLines (a ++ '\n' :: rest) = (a ++ ['\n']) :: pyReadLines rest := by
  unfold pyReadLines
  rw [pyReadLinesGo_append a [] rest h]
  simp

theorem pyReadLines_newline (rest : List Char) :
    pyReadLines ('\n' :: rest) = ['\n'] :: pyReadLines rest := by
  have h := pyReadLines_append [] rest (by simp)
  simpa using h

theorem digitChar_safe (k : Nat) :
    digitChar k ≠ '\n' ∧ digitChar k ≠ '`' ∧ isPySpace (digitChar k) = false := by
  match k with
  | 0 => exact ⟨by decide, by decide, by decide⟩
  | 1 => exact ⟨by decide, by decide, by decide⟩
  | 2 => exact ⟨by decide, by decide, by decide⟩
  | 3 => exact ⟨by decide, by decide, by decide⟩
  | 4 => exact ⟨by decide, by decide, by decide⟩
  | 5 => exact ⟨by decide, by decide, by decide⟩
  | 6 => exact ⟨by decide, by decide, by decide⟩
  | 7 => exact ⟨by decide, by decide, by decide⟩
  | 8 => exact ⟨by decide, by decide, by decide⟩
  | n + 9 =>
    refine ⟨?_, ?_, ?_⟩
    · change ('9' : Char) ≠ '\n'
      decide
    · change ('9' : Char) ≠ '`'
      decide
    · change isPySpace '9' = false
      decide

theorem natDigitsGo_mem :
    ∀ (fuel n : Nat) (c : Char), c ∈ natDigitsGo fuel n → ∃ k, c = digitChar k := by
  intro fuel
  induction fuel with
  | zero =>
    intro n c h
    simp [natDigitsGo] at h
  | succ f ih =>
    intro n c h
    unfold natDigitsGo at h
    by_cases hn : n < 10
    · rw [if_pos hn] at h
      simp at h
      exact ⟨n, h⟩
    · rw [if_neg hn] at h
      rcases List.mem_append.mp h with h1 | h2
      · exact ih _ c h1
      · simp at h2
        exact ⟨n % 10, h2⟩

theorem natToStr_mem (n : Nat) (c : Char) (h : c ∈ natToStr n) : ∃ k, c = digitChar k :=
  natDigitsGo_mem (n + 1) n c h

theorem format_timestamp_mem (q : ℚ) (c : Char) (h : c ∈ format_timestamp q) :
    (∃ k, c = digitChar k) ∨ c = ':' := by
  have hp2 : ∀ (m : Nat), c ∈ pad2 m → (∃ k, c = digitChar k) ∨ c = ':' := by
    intro m hm
    unfold pad2 at hm
    by_cases h10 : m < 10
    · rw [if_pos h10] at hm
      rcases List.mem_cons.mp hm with rfl | hmm
      · exact Or.inl ⟨0, rfl⟩
      · exact Or.inl (natToStr_mem _ c hmm)
    · rw [if_neg h10] at hm
      exact Or.inl (natToStr_mem _ c hm)
  unfold format_timestamp at h
  by_cases hh : 0 < (Int.fdiv (if q.num < 0 then 0 else q.num)
      ((if q.num < 0 then 1 else (q.den : ℤ)) * 3600)).toNat
  · rw [if_pos hh] at h
    rcases List.mem_append.mp h with h1 | h2
    · rcases List.mem_append.mp h1 with h3 | h4
      · exact Or.inl (natToStr_mem _ c h3)
      · rcases List.mem_cons.mp h4 with rfl | h5
        · exact Or.inr rfl
        · exact hp2 _ h5
    · rcases List.mem_cons.mp h2 with rfl | h6
      · exact Or.inr rfl
      · exact hp2 _ h6
  · rw [if_neg hh] at h
    rcases List.mem_append.mp h with h1 | h2
    · exact hp2 _ h1
    · rcases List.mem_cons.mp h2 with rfl | h3
      · exact Or.inr rfl
      · exact hp2 _ h3

theorem ts_safe (q : ℚ) (c : Char) (h : c ∈ format_timestamp q) :
    c ≠ '\n' ∧ c ≠ '`' ∧ isPySpace c = false := by
  rcases format_timestamp_mem q c h with ⟨k, rfl⟩ | rfl
  · exact digitChar_safe k
  · exact ⟨by decide, by decide, by decide⟩

theorem format_timestamp_ne_nil (q : ℚ) : format_timestamp q ≠ [] := by
  unfold format_timestamp
  by_cases hh : 0 < (Int.fdiv (if q.num < 0 then 0 else q.num)
      ((if q.num < 0 then 1 else (q.den : ℤ)) * 3600)).toNat
  · rw [if_pos hh]
    intro he
    rcases List.append_eq_nil.mp he with ⟨_, h2⟩
    exact absurd h2 (by simp)
  · rw [if_neg hh]
    intro he
    rcases List.append_eq_nil.mp he with ⟨_, h2⟩
    exact absurd h2 (by simp)

theorem replaceNewline_no_nl (x : List Char) (c : Char) (h : c ∈ replaceNewline x) :
    c ≠ '\n' := by
  unfold replaceNewline at h
  obtain ⟨a, _, heq⟩ := List.mem_map.mp h
  by_cases ha : a = '\n'
  · rw [if_pos ha] at heq
    subst heq
    decide
  · rw [if_neg ha] at heq
    subst heq
    exact ha

theorem pyStrip_head (l : List Char) (c : Char) (h : (pyStrip l).head? = some c) :
    isPySpace c = false :=
  stripBoth_head _ l c h

theorem pyStrip_last (l : List Char) (c : Char) (h : (pyStrip l).getLast? = some c) :
    isPySpace c = false :=
  stripBoth_last _ l c h

theorem pyStrip_subset (l : List Char) : pyStrip l ⊆ l :=
  stripBoth_subset _ l

theorem pyStrip_fix (l : List Char) : pyStrip (pyStrip l) = pyStrip l :=
  stripBoth_id _ (pyStrip l) (fun c hc => pyStrip_head l c hc) (fun c hc => pyStrip_last l c hc)

theorem pyStrip_line (a : List Char) (ha : a ≠ [])
    (hh : ∀ c, a.head? = some c → isPySpace c = false)
    (hl : ∀ c, a.getLast? = some c → isPySpace c = false) :
    pyStrip (a ++ ['\n']) = a := by
  unfold pyStrip
  have h1 : (a ++ ['\n']).dropWhile (fun c => isPySpace c) = a ++ ['\n'] := by
    cases a with
    | nil => exact absurd rfl ha
    | cons c a2 =>
      rw [List.cons_append, List.dropWhile_cons, if_neg (by simp [hh c (by simp)])]
  rw [h1]
  rw [List.rdropWhile_concat_pos _ _ '\n' (by decide)]
  rw [List.rdropWhile_eq_self_iff]
  intro hne
  have := hl (a.getLast hne) (List.getLast?_eq_getLast a hne)
  simp [this]

theorem splitOnFirst_no_tick (b : List Char) :
    ∀ (m : List Char), (∀ c ∈ m, c ≠ '`') →
      splitOnFirst mdSepDash (m ++ (mdSepDash ++ b)) = some (m, b) := by
  intro m
  induction m with
  | nil =>
    intro _
    cases b with
    | nil => rfl
    | cons c bs => rfl
  | cons c m2 ih =>
    intro h
    have hc : c ≠ '`' := h c (by simp)
    show splitOnFirst mdSepDash (c :: (m2 ++ (mdSepDash ++ b))) = some (c :: m2, b)
    unfold splitOnFirst
    have hpre : mdSepDash.isPrefixOf (c :: (m2 ++ (mdSepDash ++ b))) = false := by
      show (('`' == c) && List.isPrefixOf [' ', '—', ' '] (m2 ++ (mdSepDash ++ b))) = false
      rw [beq_eq_false_iff_ne.mpr (fun he => hc he.symm)]
      rfl
    rw [if_neg (by simp [hpre])]
    rw [ih (fun x hx => h x (by simp [hx]))]

theorem splitOnFirst_entry (ts t : List Char)
    (hth : ∀ c, ts.head? = some c → c ≠ ' ')
    (htk : ∀ c ∈ ts, c ≠ '`')
    (hne : ts ≠ []) :
    splitOnFirst mdSepDash (entryBody ts t) = some ('`' :: ts, t) := by
  show splitOnFirst mdSepDash ('`' :: (ts ++ (mdSepDash ++ t))) = some ('`' :: ts, t)
  unfold splitOnFirst
  have hpre : mdSepDash.isPrefixOf ('`' :: (ts ++ (mdSepDash ++ t))) = false := by
    cases hts : ts with
    | nil => exact absurd hts hne
    | cons c0 ts2 =>
      have hc0 : c0 ≠ ' ' := hth c0 (by rw [hts]; rfl)
      show (('`' == '`') && ((' ' == c0) && List.isPrefixOf ['—', ' '] (ts2 ++ (mdSepDash ++ t)))) = false
      rw [beq_eq_false_iff_ne.mpr (fun he => hc0 he.symm)]
      rfl
  rw [if_neg (by simp [hpre])]
  rw [splitOnFirst_no_tick t ts htk]

theorem isPrefixOf_nil_left (l : List Char) : List.isPrefixOf ([] : List Char) l = true := by
  cases l with
  | nil => rfl
  | cons c r => rfl

theorem parseStep_title (st : ParsedFile) (title : List Char)
    (hne : title ≠ [])
    (hlast : ∀ c, title.getLast? = some c → isPySpace c = false) :
    parseLineStep st (('#' :: ' ' :: title) ++ ['\n']) = { st with title := title } := by
  have hstrip : pyStrip (('#' :: ' ' :: title) ++ ['\n']) = '#' :: ' ' :: title := by
    apply pyStrip_line
    · simp
    · intro c hc
      simp at hc
      rw [← hc]
      decide
    · intro c hc
      cases title with
      | nil => exact absurd rfl hne
      | cons t0 ts =>
        rw [List.getLast?_cons_cons, List.getLast?_cons_cons] at hc
        exact hlast c hc
  simp only [parseLineStep, hstrip]
  rw [if_pos (show ("# ".data.isPrefixOf ('#' :: ' ' :: title)) = true by
    show (('#' == '#') && ((' ' == ' ') && List.isPrefixOf [] title)) = true
    rw [isPrefixOf_nil_left]
    rfl)]
  rfl

theorem parseStep_blank (st : ParsedFile) : parseLineStep st ['\n'] = st := by
  rfl

theorem parseStep_transcript (st : ParsedFile) :
    parseLineStep st ("## Transcript".data ++ ['\n']) = st := by
  rfl

theorem parseStep_url (st : ParsedFile) (url : List Char) :
    (parseLineStep st (urlLine url ++ ['\n'])).title = st.title ∧
    (parseLineStep st (urlLine url ++ ['\n'])).entries = st.entries := by
  have hstrip : pyStrip (urlLine url ++ ['\n']) = urlLine url := by
    apply pyStrip_line
    · intro h
      have := congrArg List.length h
      simp [urlLine] at this
    · intro c hc
      rw [show (urlLine url).head? = some '*' from rfl] at hc
      simp at hc
      rw [← hc]
      decide
    · intro c hc
      rw [show urlLine url = ("**Video URL:** [".data ++ url ++ "](".data ++ url) ++ [')']
        from rfl] at hc
      rw [List.getLast?_concat] at hc
      simp at hc
      rw [← hc]
      decide
  simp only [parseLineStep, hstrip]
  rw [if_neg (show ¬ ("# ".data.isPrefixOf (urlLine url)) = true by
    intro hcon
    rw [show ("# ".data.isPrefixOf (urlLine url)) = false from rfl] at hcon
    cases hcon)]
  rw [if_pos (show ("**Video URL:**".data.isPrefixOf (urlLine url)) = true from rfl)]
  cases heu : extractUrlFromLine (urlLine url) with
  | some u => exact ⟨rfl, rfl⟩
  | none => exact ⟨rfl, rfl⟩

theorem parseStep_entry (st : ParsedFile) (ts t : List Char)
    (hts_ne : ts ≠ [])
    (hts : ∀ c ∈ ts, c ≠ '\n' ∧ c ≠ '`' ∧ isPySpace c = false)
    (ht_ne : t ≠ [])
    (ht_head : ∀ c, t.head? = some c → isPySpace c = false)
    (ht_last : ∀ c, t.getLast? = some c → isPySpace c = false)
    (ht_strip : pyStrip t = t) :
    parseLineStep st (entryBody ts t ++ ['\n']) =
      { st with entries := st.entries ++ [(ts, t)] } := by
  have hth : ∀ c, ts.head? = some c → c ≠ ' ' := by
    intro c hc he
    have hmem : c ∈ ts := List.mem_of_mem_head? (by simp [hc])
    have := (hts c hmem).2.2
    rw [he] at this
    exact absurd this (by decide)
  have htk : ∀ c ∈ ts, c ≠ '`' := fun c hc => (hts c hc).2.1
  have hsplit := splitOnFirst_entry ts t hth htk hts_ne
  have hstrip : pyStrip (entryBody ts t ++ ['\n']) = entryBody ts t := by
    apply pyStrip_line
    · intro h
      have := congrArg List.length h
      simp [entryBody] at this
    · intro c hc
      rw [show (entryBody ts t).head? = some '`' from rfl] at hc
      simp at hc
      rw [← hc]
      decide
    · intro c hc
      rw [show entryBody ts t = ('`' :: ts) ++ (['`', ' ', '—', ' '] ++ t) from rfl] at hc
      rw [List.getLast?_append_of_ne_nil ('`' :: ts) (by simp [ht_ne])] at hc
      rw [List.getLast?_append_of_ne_nil ['`', ' ', '—', ' '] ht_ne] at hc
      exact ht_last c hc
  have hsb : stripBackticks ('`' :: ts) = ts := by
    unfold stripBackticks
    have h1 : ('`' :: ts).dropWhile (fun c => c = '`') = ts := by
      rw [List.dropWhile_cons, if_pos (by decide)]
      cases ts with
      | nil => exact absurd rfl hts_ne
      | cons c0 ts2 =>
        rw [List.dropWhile_cons, if_neg (by
          simp
          exact (hts c0 (by simp)).2.1)]
    rw [h1]
    rw [List.rdropWhile_eq_self_iff]
    intro hne2
    have hmem : ts.getLast hne2 ∈ ts := List.getLast_mem hne2
    simp
    exact (hts _ hmem).2.1
  simp only [parseLineStep, hstrip]
  rw [if_neg (show ¬ ("# ".data.isPrefixOf (entryBody ts t)) = true by
    intro hcon
    rw [show ("# ".data.isPrefixOf (entryBody ts t)) = false from rfl] at hcon
    cases hcon)]
  rw [if_neg (show ¬ ("**Video URL:**".data.isPrefixOf (entryBody ts t)) = true by
    intro hcon
    rw [show ("**Video URL:**".data.isPrefixOf (entryBody ts t)) = false from rfl] at hcon
    cases hcon)]
  have hpre1 : ("`".data.isPrefixOf (entryBody ts t)) = true := by
    show (('`' == '`') && List.isPrefixOf [] (ts ++ (mdSepDash ++ t))) = true
    rw [isPrefixOf_nil_left]
    rfl
  rw [if_pos (by rw [hpre1, hsplit]; rfl)]
  rw [hsplit]
  show { st with entries := st.entries ++ [(stripBackticks ('`' :: ts), pyStrip t)] } =
    { st with entries := st.entries ++ [(ts, t)] }
  rw [hsb, ht_strip]

theorem parse_entryLines_fold :
    ∀ (entries : List Entry) (st : ParsedFile),
      List.foldl parseLineStep st (pyReadLines (entries.map entryLineMd).flatten) =
        { st with entries := st.entries ++ writtenPairs entries } := by
  intro entries
  induction entries with
  | nil =>
    intro st
    simp [pyReadLines, pyReadLinesGo, writtenPairs]
  | cons e rest ih =>
    intro st
    simp only [List.map_cons, List.flatten_cons]
    by_cases h : pyStrip (replaceNewline e.text.data) = []
    · have hline : entryLineMd e = [] := by
        simp [entryLineMd, h]
      rw [hline, List.nil_append, ih]
      have hw : writtenPairs (e :: rest) = writtenPairs rest := by
        simp [writtenPairs, List.filterMap_cons, h]
      rw [hw]
    · set t := pyStrip (replaceNewline e.text.data) with hts
      have hline : entryLineMd e = entryBody (format_timestamp e.start) t ++ ['\n'] := by
        simp [entryLineMd, h]
      have ht_head : ∀ c, t.head? = some c → isPySpace c = false := fun c hc =>
        pyStrip_head _ c hc
      have ht_last : ∀ c, t.getLast? = some c → isPySpace c = false := fun c hc =>
        pyStrip_last _ c hc
      have hbody_nl : ∀ c ∈ entryBody (format_timestamp e.start) t, c ≠ '\n' := by
        intro c hc
        rw [show entryBody (format_timestamp e.start) t =
          ('`' :: format_timestamp e.start) ++ (['`', ' ', '—', ' '] ++ t) from rfl] at hc
        rcases List.mem_append.mp hc with h1 | h2
        · rcases List.mem_cons.mp h1 with rfl | h3
          · decide
          · exact (ts_safe e.start c h3).1
        · rcases List.mem_append.mp h2 with h4 | h5
          · simp only [List.mem_cons, List.not_mem_nil, or_false] at h4
            rcases h4 with rfl | rfl | rfl | rfl
            · decide
            · decide
            · decide
            · decide
          · have hsub : c ∈ replaceNewline e.text.data := pyStrip_subset _ h5
            exact replaceNewline_no_nl _ c hsub
      rw [hline, List.append_assoc, List.singleton_append]
      rw [pyReadLines_append _ _ hbody_nl]
      rw [List.foldl_cons]
      rw [parseStep_entry st (format_timestamp e.start) t
        (format_timestamp_ne_nil e.start)
        (fun c hc => ts_safe e.start c hc)
        h
        ht_head ht_last (pyStrip_fix _)]
      rw [ih]
      have hw : writtenPairs (e :: rest) =
          (format_timestamp e.start, t) :: writtenPairs rest := by
        simp [writtenPairs, List.filterMap_cons, h]
      rw [hw]
      simp

theorem parse_lines_tail (st1 : ParsedFile) (url : List Char) (entries : List Entry) :
    (List.foldl parseLineStep st1
      (['\n'] :: (urlLine url ++ ['\n']) :: ['\n'] :: ("## Transcript".data ++ ['\n']) ::
        ['\n'] :: pyReadLines (entries.map entryLineMd).flatten)).title = st1.title ∧
    (List.foldl parseLineStep st1
      (['\n'] :: (urlLine url ++ ['\n']) :: ['\n'] :: ("## Transcript".data ++ ['\n']) ::
        ['\n'] :: pyReadLines (entries.map entryLineMd).flatten)).entries =
      st1.entries ++ writtenPairs entries := by
  rw [List.foldl_cons, parseStep_blank]
  rw [List.foldl_cons]
  obtain ⟨hu1, hu2⟩ := parseStep_url st1 url
  rw [List.foldl_cons, parseStep_blank]
  rw [List.foldl_cons, parseStep_transcript]
  rw [List.foldl_cons, parseStep_blank]
  rw [parse_entryLines_fold]
  refine ⟨hu1, ?_⟩
  show (parseLineStep st1 (urlLine url ++ ['\n'])).entries ++ writtenPairs entries =
    st1.entries ++ writtenPairs entries
  rw [hu2]

/-- C6 counterexample: a title with trailing whitespace is not recovered by
the re-parser — the line is stripped before the `# ` check, so `"a "` comes
back as `"a"`. -/
theorem claim6_counterexample :
    (parse_markdown_transcript "stem".data
        (pyReadLines (write_markdown "a ".data "http://u".data []))).title = "a".data ∧
    ("a".data : List Char) ≠ "a ".data := by
  constructor
  · decide
  · decide

/-- C6 (amended): a Markdown file written by the serializer, re-parsed by
the combiner's Markdown parsing, recovers the title and the ordered
(formatted timestamp, trimmed newline-collapsed text) pairs that were
written (empty-text entries omitted), provided the title is nonempty, does
not end in whitespace, and title, URL and entry texts are free of newlines
and carriage returns (a trailing-whitespace or newline-containing title is
not recovered verbatim). -/
theorem claim6_markdown_round_trip :
    ∀ (title url : List Char) (entries : List Entry) (stem : List Char),
      title ≠ [] →
      (∀ c ∈ title, c ≠ '\n' ∧ c ≠ '\r') →
      (∀ c, title.getLast? = some c → isPySpace c = false) →
      (∀ c ∈ url, c ≠ '\n' ∧ c ≠ '\r') →
      (∀ e ∈ entries, ∀ c ∈ e.text.data, c ≠ '\r') →
      (parse_markdown_transcript stem (pyReadLines (write_markdown title url entries))).title =
        title ∧
      (parse_markdown_transcript stem (pyReadLines (write_markdown title url entries))).entries =
        writtenPairs entries := by
  intro title url entries stem hne htitle hlast hurl _
  unfold parse_markdown_transcript write_markdown
  rw [pyReadLines_append ('#' :: ' ' :: title) _ (by
    intro c hc
    rcases List.mem_cons.mp hc with rfl | hc2
    · decide
    · rcases List.mem_cons.mp hc2 with rfl | hc3
      · decide
      · exact (htitle c hc3).1)]
  rw [pyReadLines_newline]
  rw [pyReadLines_append (urlLine url) _ (by
    intro c hc
    rw [show urlLine url =
      "**Video URL:** [".data ++ (url ++ ("](".data ++ (url ++ [')']))) from by
        simp [urlLine]] at hc
    rcases List.mem_append.mp hc with h1 | h2
    · exact (show ∀ x ∈ "**Video URL:** [".data, x ≠ '\n' by decide) c h1
    · rcases List.mem_append.mp h2 with h3 | h4
      · exact (hurl c h3).1
      · rcases List.mem_append.mp h4 with h5 | h6
        · exact (show ∀ x ∈ "](".data, x ≠ '\n' by decide) c h5
        · rcases List.mem_append.mp h6 with h7 | h8
          · exact (hurl c h7).1
          · simp at h8
            rw [h8]
            decide)]
  rw [pyReadLines_newline]
  rw [pyReadLines_append ("## Transcript".data) _ (by decide)]
  rw [pyReadLines_newline]
  rw [List.foldl_cons]
  rw [parseStep_title _ title hne hlast]
  exact parse_lines_tail _ url entries

theorem claim6_markdown_round_trip_witness :
    (parse_markdown_transcript "stem".data
        (pyReadLines (write_markdown "Hello".data "http://u".data
          [{ text := "hi there", start := 5, duration := none }]))).title = "Hello".data ∧
    (parse_markdown_transcript "stem".data
        (pyReadLines (write_markdown "Hello".data "http://u".data
          [{ text := "hi there", start := 5, duration := none }]))).entries =
      writtenPairs [{ text := "hi there", start := 5, duration := none }] :=
  claim6_markdown_round_trip "Hello".data "http://u".data
    [{ text := "hi there", start := 5, duration := none }] "stem".data
    (by decide)
    (by decide)
    (fun c hc => by
      have h : some 'o' = some c := hc
      injection h with h2
      rw [← h2]
      rfl)
    (by decide)
    (by decide)

end Ytm
